import Mathlib

/-!
Verification of the natural-language specification of
`fedora-flathub-filter` (`update.py`) against a shallow embedding of its
code.  Python strings are modelled as `String`/`List Char`, Python dicts
as insertion-ordered association lists, fatal `error()`/assertion exits
as `Except`/`Option`, and file contents as lists of lines
(`List (List Char)`).
-/

namespace FFF

/-- Python's `str.isspace` set as used by `str.strip()` / `\s`. -/
def pySpace (c : Char) : Bool :=
  c = ' ' || c = '\t' || c = '\n' || c = '\r' || c = '\x0b' || c = '\x0c'

/-- Remove trailing whitespace characters (the `rstrip` half of `str.strip`). -/
def dropTrailing : List Char → List Char
  | [] => []
  | c :: cs =>
    match dropTrailing cs with
    | [] => if pySpace c then [] else [c]
    | r => c :: r

/-- Python `str.strip()` on a list of characters. -/
def stripChars (s : List Char) : List Char :=
  dropTrailing (s.dropWhile pySpace)

/-- Python `str.split(sep)` (single-character separator, no maxsplit):
always returns at least one (possibly empty) part. -/
def splitChars (sep : Char) : List Char → List (List Char)
  | [] => [[]]
  | c :: cs =>
    if c = sep then [] :: splitChars sep cs
    else
      match splitChars sep cs with
      | [] => [[c]]
      | h :: t => (c :: h) :: t

/-- Python `str.split(sep, 1)`: `none` when the separator does not occur
(the caller `field_name_raw, value = line.split(":", 1)` then raises). -/
def splitOnce (sep : Char) : List Char → Option (List Char × List Char)
  | [] => none
  | c :: cs =>
    if c = sep then some ([], cs)
    else
      match splitOnce sep cs with
      | none => none
      | some (a, b) => some (c :: a, b)

/-- `id_from_ref` (update.py lines 54-60).  `app/<id>/...` yields `<id>`;
`runtime/<id>/<arch>/<branch>` yields `<id>/<branch>`.  The `assert`
on any other leading token, and Python `IndexError` on too few
segments, are modelled as `none` (fatal). -/
def id_from_ref (ref : String) : Option String :=
  match splitChars '/' ref.toList with
  | [] => none
  | p0 :: rest =>
    if p0 = "app".toList then
      match rest with
      | [] => none
      | p1 :: _ => some (String.mk p1)
    else if p0 = "runtime".toList then
      match rest with
      | p1 :: _ :: p3 :: _ => some (String.mk (p1 ++ '/' :: p3))
      | _ => none
    else none

/-- The `Component` class (update.py lines 63-143).  `WildcardComponent`
is the same record with `isWildcard = true`; its compiled regex is a
function of `id` and is not stored. -/
structure Component where
  id : String
  name : Option String := none
  homepage : Option String := none
  license : Option String := none
  runtime : Option String := none
  download_count : Int := 0
  download_rank : Nat := 0
  fedora_flatpak : Bool := false
  comments : String := ""
  «include» : String := ""
  isWildcard : Bool := false
deriving Repr, DecidableEq

/-- `self.sort_key = tuple(x.lower() for x in self.id.split("/"))`. -/
def Component.sort_key (c : Component) : List String :=
  (splitChars '/' c.id.toList).map (fun seg => String.mk (seg.map Char.toLower))

/-- `Component.filter_ref` (update.py lines 95-102).  `none` models the
`assert len(parts) == 2` failure for ids with more than one `/`. -/
def Component.filter_ref (c : Component) : Option String :=
  match splitChars '/' c.id.toList with
  | [p] => some (String.mk p)
  | [p0, p1] => some (String.mk ("runtime/".toList ++ p0 ++ '/' :: '*' :: '/' :: p1))
  | _ => none

/-- `Component._merge_field` (update.py lines 111-121), for one curated
field given by its getter/setter; returns the updated component and the
warnings printed. -/
def mergeField (self : Component) (base : Option Component) (other : Component)
    (get : Component → String) (set : Component → String → Component)
    (fieldName : String) : Component × List String :=
  let new := get other
  let overlay : Bool :=
    match base with
    | none => true
    | some b => new ≠ get b
  if overlay then
    if other.isWildcard then
      if get self ≠ "" then
        (self, [self.id ++ ": matched by wildcard " ++ other.id ++
                ", but " ++ fieldName ++ " explicitly specified"])
      else if new ≠ "" then
        (set self ("[" ++ other.id ++ "] " ++ new), [])
      else
        (self, [])
    else
      (set self new, [])
  else
    (self, [])

/-- `Component.merge` (update.py lines 123-125): `_merge_field` over
`load_fields = ("comments", "include")` in order. -/
def Component.merge (self : Component) (base : Option Component) (other : Component) :
    Component × List String :=
  let r1 := mergeField self base other (fun c => c.comments)
    (fun c v => { c with comments := v }) "comments"
  let r2 := mergeField r1.1 base other (fun c => c.«include»)
    (fun c v => { c with «include» := v }) "include"
  (r2.1, r1.2 ++ r2.2)

/-! ### Wildcard matcher (update.py lines 146-168)

`WildcardComponent.__init__` compiles the id into the regex
`^seg1/seg2/.../segn$` where each pattern segment has every `*`
replaced by `[^/]*` and every other character escaped to a literal.
The regex is modelled as a token list; `rmatch` is full-match
(existence of a backtracking match, which is what `re.match` with
anchors decides). -/

inductive RTok where
  | lit (c : Char)
  | star
deriving Repr, DecidableEq

/-- Compile one `/`-free pattern segment: `*` becomes `[^/]*`
(`RTok.star`), everything else a literal. -/
def compileSeg : List Char → List RTok
  | [] => []
  | c :: cs => (if c = '*' then RTok.star else RTok.lit c) :: compileSeg cs

/-- `"/".join(result_parts)` on token lists. -/
def joinSegs : List (List RTok) → List RTok
  | [] => []
  | [s] => s
  | s :: rest => s ++ RTok.lit '/' :: joinSegs rest

/-- The compiled regex of a wildcard id. -/
def compilePattern (id : String) : List RTok :=
  joinSegs ((splitChars '/' id.toList).map compileSeg)

/-- `[^/]*` followed by a continuation: try every split point that
consumes only non-`/` characters. -/
def starAux (next : List Char → Bool) : List Char → Bool
  | [] => next []
  | x :: xs => next (x :: xs) || (!(x = '/') && starAux next xs)

/-- Full match of a token list against a character list. -/
def rmatch : List RTok → List Char → Bool
  | [] => fun s => s.isEmpty
  | RTok.lit c :: ps => fun s =>
      match s with
      | [] => false
      | x :: xs => c = x && rmatch ps xs
  | RTok.star :: ps => starAux (rmatch ps)

/-- `WildcardComponent.matches` (update.py lines 167-168):
`self.regex.match(component.id)` with the `^...$` anchors. -/
def Component.matches (pat : Component) (c : Component) : Bool :=
  rmatch (compilePattern pat.id) c.id.toList

/-- Modelled from the spec's matching contract (for the refinement
theorem of C4): within one segment, `*` matches zero or more non-`/`
characters and every other character matches itself literally. -/
def globSeg : List Char → List Char → Bool
  | [] => fun s => s.isEmpty
  | p :: ps =>
    if p = '*' then starAux (globSeg ps)
    else fun s =>
      match s with
      | [] => false
      | x :: xs => p = x && globSeg ps xs

/-- Modelled from the spec's matching contract: the pattern matches an
id iff they have the same number of `/`-separated segments and each
pattern segment glob-matches the id segment in the same position. -/
def wildcardSpecMatches (pat s : String) : Bool :=
  let ps := splitChars '/' pat.toList
  let ss := splitChars '/' s.toList
  ps.length = ss.length && (ps.zip ss).all (fun pc => globSeg pc.1 pc.2)

/-! ### Curated-file parser (update.py lines 293-342) -/

/-- Fatal outcomes of `add_components_from_path`: the three `error()`
calls (which `sys.exit(1)`), plus the `ValueError` a field line
without `:` would raise at the tuple unpacking. -/
inductive ParseErr where
  | textBeforeComponent (path : String) (lineNo : Nat)
  | unknownKey (path : String) (lineNo : Nat) (raw : String)
  | badInclude (path : String) (lineNo : Nat) (value : String)
  | noColon (path : String) (lineNo : Nat)
deriving Repr, DecidableEq

/-- Match `\s*\([^)]*\)\s*` at the start of the list: returns the
remainder after the match, or `none` if there is no parenthesized
group here.  `[^)]*` consumes up to the first `)`. -/
def takeToClose : List Char → Option (List Char)
  | [] => none
  | c :: cs => if c = ')' then some cs else takeToClose cs

def matchParens (s : List Char) : Option (List Char) :=
  match s.dropWhile pySpace with
  | '(' :: rest =>
    match takeToClose rest with
    | some after => some (after.dropWhile pySpace)
    | none => none
  | _ => none

/-- `re.sub(r"\s*\([^)]*\)\s*", " ", raw)`: scan left to right, replace
each leftmost match by a single space.  A successful match always
consumes at least `(` and `)`, so `raw.length` fuel suffices. -/
def subParensGo : Nat → List Char → List Char
  | 0, s => s
  | _ + 1, [] => []
  | fuel + 1, c :: cs =>
    match matchParens (c :: cs) with
    | some rem => ' ' :: subParensGo fuel rem
    | none => c :: subParensGo fuel cs

def subParens (s : List Char) : List Char :=
  subParensGo s.length s

/-- Field-label normalization (update.py lines 321-322):
strip parenthesized suffixes, strip, lowercase, spaces to `_`. -/
def normalizeField (raw : List Char) : List Char :=
  ((stripChars (subParens raw)).map Char.toLower).map
    (fun c => if c = ' ' then '_' else c)

/-- The keys of `Component.fields` (update.py lines 64-73). -/
def fieldKeys : List (List Char) :=
  ["name".toList, "homepage".toList, "license".toList, "runtime".toList,
   "downloads".toList, "fedora_flatpak".toList, "comments".toList,
   "include".toList]

/-- A freshly constructed `Component(component_id)` /
`WildcardComponent(component_id)`. -/
def mkComponent (id : List Char) (wildcard : Bool) : Component :=
  { id := String.mk id, isWildcard := wildcard }

/-- Insertion-ordered Python-dict assignment `d[k] = v`: replaces the
value in place if the key exists, else appends. -/
def dictSet (d : List (String × Component)) (k : String) (v : Component) :
    List (String × Component) :=
  match d with
  | [] => [(k, v)]
  | (k', v') :: rest =>
    if k' = k then (k, v) :: rest else (k', v') :: dictSet rest k v

/-- `d.get(k)`. -/
def dictGet (d : List (String × Component)) (k : String) : Option Component :=
  match d with
  | [] => none
  | (k', v') :: rest => if k' = k then some v' else dictGet rest k

/-- Parser state inside `add_components_from_path`: the dict being
filled and the component currently being read. -/
structure PState where
  dict : List (String × Component)
  cur : Option Component
deriving Repr, DecidableEq

/-- Register the pending component, if any (`components[component.id]
= component`). -/
def flushCur (st : PState) : List (String × Component) :=
  match st.cur with
  | some c => dictSet st.dict c.id c
  | none => st.dict

/-- The error kinds of one parsing-loop iteration, before the file
path and line number are attached to the message. -/
inductive LineErr where
  | textBefore
  | unknownKey (raw : String)
  | badInclude (value : String)
  | noColon
deriving Repr, DecidableEq

/-- One iteration of the parsing loop (update.py lines 301-339) on an
already-read raw line; the state transition does not depend on the
line number, which only decorates errors. -/
def processLineCore (wildcard : Bool) (st : PState) (raw : List Char) :
    Except LineErr PState :=
  let line := stripChars raw
  if line = [] then .ok st
  else if line.head? = some '[' ∧ line.getLast? = some ']' then
    .ok ⟨flushCur st, some (mkComponent (line.drop 1).dropLast wildcard)⟩
  else
    match st.cur with
    | none => .error .textBefore
    | some comp =>
      match splitOnce ':' line with
      | none => .error .noColon
      | some (rawName, rawValue) =>
        let fname := normalizeField rawName
        if fname ∉ fieldKeys then
          .error (.unknownKey (String.mk rawName))
        else
          let v0 := stripChars rawValue
          let v1 := if v0.head? = some '[' then [] else v0
          if fname = "include".toList then
            let v2 := v1.map Char.toLower
            if v2 ≠ [] ∧ v2 ≠ "yes".toList ∧ v2 ≠ "no".toList then
              .error (.badInclude (String.mk v2))
            else
              .ok ⟨st.dict, some { comp with «include» := String.mk v2 }⟩
          else if fname = "comments".toList then
            .ok ⟨st.dict, some { comp with comments := String.mk v1 }⟩
          else
            .ok ⟨st.dict, some comp⟩

/-- One iteration of the parsing loop with the `error()` messages of
the source (file path and 1-based line number). -/
def processLine (path : String) (wildcard : Bool) (st : PState)
    (lineNo : Nat) (raw : List Char) : Except ParseErr PState :=
  match processLineCore wildcard st raw with
  | .ok st' => .ok st'
  | .error .textBefore => .error (.textBeforeComponent path lineNo)
  | .error (.unknownKey r) => .error (.unknownKey path lineNo r)
  | .error (.badInclude v) => .error (.badInclude path lineNo v)
  | .error .noColon => .error (.noColon path lineNo)

/-- The parsing loop over the remaining lines; `n` is the number of
lines already consumed. -/
def processLines (path : String) (wildcard : Bool) :
    PState → Nat → List (List Char) → Except ParseErr PState
  | st, _, [] => .ok st
  | st, n, l :: ls =>
    match processLine path wildcard st (n + 1) l with
    | .error e => .error e
    | .ok st' => processLines path wildcard st' (n + 1) ls

/-- `add_components_from_path` (update.py lines 293-342) on the file's
lines (a missing file is the empty line list, which leaves the dict
unchanged). -/
def add_components_from_path (components : List (String × Component))
    (path : String) (lines : List (List Char)) (wildcard : Bool) :
    Except ParseErr (List (String × Component)) :=
  match processLines path wildcard ⟨components, none⟩ 0 lines with
  | .error e => .error e
  | .ok st => .ok (flushCur st)

/-- The component the parser reconstructs from a dumped block: only the
id and the curated fields survive (all other fields are parsed but
discarded). -/
def parsedOf (c : Component) : Component :=
  { id := c.id, comments := c.comments, «include» := c.«include» }

/-- The parser state reached after reading one block per listed
component while `comp` was the pending component. -/
def parseEnd (d : List (String × Component)) (comp : Component) :
    List Component → PState
  | [] => ⟨d, some comp⟩
  | c :: cs => parseEnd (dictSet d comp.id comp) (parsedOf c) cs

/-! ### Writer (update.py lines 127-143, 162-165) -/

/-- One `Label: value` output line; an empty value is printed as a bare
`Label:` with no trailing space. -/
def fieldLine (label : String) (v : String) : List Char :=
  if v = "" then label.toList ++ [':']
  else label.toList ++ ':' :: ' ' :: v.toList

/-- An optional remote field is only printed when present. -/
def dumpOptField (label : String) (v : Option String) : List (List Char) :=
  match v with
  | none => []
  | some s => [fieldLine label s]

/-- The `downloads` property string (update.py lines 91-93). -/
def downloadsStr (c : Component) : String :=
  toString c.download_count ++ " (rank: " ++ toString c.download_rank ++ ")"

/-- `Component.dump` / `WildcardComponent.dump`: header plus the fields
of `Component.fields` in order (wildcards print only the curated
fields). -/
def Component.dump (c : Component) : List (List Char) :=
  ('[' :: c.id.toList ++ [']']) ::
  (if c.isWildcard then
    [fieldLine "Comments" c.comments, fieldLine "Include" c.«include»]
  else
    dumpOptField "Name" c.name ++ dumpOptField "Homepage" c.homepage ++
    dumpOptField "License" c.license ++ dumpOptField "Runtime" c.runtime ++
    [fieldLine "Downloads (new last month)" (downloadsStr c),
     fieldLine "Fedora Flatpak" (if c.fedora_flatpak then "True" else "False"),
     fieldLine "Comments" c.comments,
     fieldLine "Include" c.«include»])

/-- Blocks separated by one blank line (`if i != 0: print(file=...)`). -/
def dumpComponents : List Component → List (List Char)
  | [] => []
  | c :: rest => c.dump ++ rest.flatMap (fun c' => [] :: c'.dump)

/-! ### Python ordering and `sorted` -/

/-- Python string `<`: lexicographic by code point. -/
def charListLt : List Char → List Char → Bool
  | [], [] => false
  | [], _ :: _ => true
  | _ :: _, [] => false
  | c :: cs, d :: ds => if c = d then charListLt cs ds else decide (c < d)

def pyStrLt (a b : String) : Bool := charListLt a.toList b.toList

/-- Python tuple-of-strings `<` (first difference decides, a strict
prefix is smaller). -/
def listStrLt : List String → List String → Bool
  | [], [] => false
  | [], _ :: _ => true
  | _ :: _, [] => false
  | a :: as, b :: bs => if a = b then listStrLt as bs else pyStrLt a b

/-- The key `(-flathub_totals[id], sort_key)` used to sort remote
components (update.py lines 426-429), as a strict order. -/
def totKeyLt (totals : String → Int) (a b : Component) : Bool :=
  if -(totals a.id) = -(totals b.id) then listStrLt a.sort_key b.sort_key
  else decide (-(totals a.id) < -(totals b.id))

/-- The `sort_key` order used for wildcard and filter output. -/
def skLt (a b : Component) : Bool := listStrLt a.sort_key b.sort_key

/-- Stable insertion: a new element goes after every existing element
it is not strictly below. -/
def insertSorted (lt : α → α → Bool) (x : α) : List α → List α
  | [] => [x]
  | y :: ys => if lt x y then x :: y :: ys else y :: insertSorted lt x ys

/-- Python `sorted(l, key=...)`: stable ascending sort (inserting the
elements left to right keeps the original order of key-equal
elements). -/
def pySortBy (lt : α → α → Bool) (l : List α) : List α :=
  l.foldl (fun acc x => insertSorted lt x acc) []

/-! ### `update_report` pipeline (update.py lines 345-485) -/

/-- The curated text files of one directory. -/
structure CuratedDir where
  apps : List (List Char)
  other : List (List Char)
  wildcard : List (List Char)
deriving Repr, DecidableEq

/-- `load_components` (update.py lines 345-350): `apps.txt` then
`other.txt` into the same dict. -/
def load_components (d : CuratedDir) : Except ParseErr (List (String × Component)) :=
  match add_components_from_path [] "apps.txt" d.apps false with
  | .error e => .error e
  | .ok c1 => add_components_from_path c1 "other.txt" d.other false

/-- `load_wildcards` (update.py lines 353-357). -/
def load_wildcards (d : CuratedDir) : Except ParseErr (List (String × Component)) :=
  add_components_from_path [] "wildcard.txt" d.wildcard true

/-- The in-place field updates of the wildcard delta replay
(update.py lines 373-377). -/
def updateWildcardEntry (fromC : Option Component) (toC c : Component) : Component :=
  let c1 :=
    match fromC with
    | none => { c with comments := toC.comments }
    | some f =>
      if toC.comments ≠ f.comments then { c with comments := toC.comments } else c
  match fromC with
  | none => { c1 with «include» := toC.«include» }
  | some f =>
    if toC.«include» ≠ f.«include» then { c1 with «include» := toC.«include» } else c1

/-- The delta-replay fold of `get_updated_wildcards`
(update.py lines 370-379), on already-loaded dicts. -/
def get_updated_wildcards (wildcards dFrom dTo : List (String × Component)) :
    List (String × Component) :=
  dTo.foldl
    (fun acc kv =>
      match dictGet acc kv.1 with
      | some c => dictSet acc kv.1 (updateWildcardEntry (dictGet dFrom kv.1) kv.2 c)
      | none => dictSet acc kv.1 kv.2)
    wildcards

/-- `get_updated_wildcards` with its file loading (update.py lines
360-381); both delta directories must be present for the replay. -/
def updated_wildcards (input : CuratedDir) (dF dT : Option CuratedDir) :
    Except ParseErr (List (String × Component)) :=
  match load_wildcards input with
  | .error e => .error e
  | .ok w0 =>
    match dF, dT with
    | some f, some t =>
      match load_wildcards f with
      | .error e => .error e
      | .ok wf =>
        match load_wildcards t with
        | .error e => .error e
        | .ok wt => .ok (get_updated_wildcards w0 wf wt)
    | _, _ => .ok w0

/-- `write_wildcard_components` (update.py lines 384-396): sort by
`sort_key`, collect the `include == "yes"` entries in that order,
dump the blocks. -/
def write_wildcard_components (wildcards : List (String × Component)) :
    List Component × List (List Char) :=
  let sortedW := pySortBy skLt (wildcards.map Prod.snd)
  (sortedW.filter (fun c => c.«include» = "yes"), dumpComponents sortedW)

/-- The merge cascade applied to one remote component inside the main
loop (update.py lines 430-443): set `download_count`, direct overlay,
delta replay, then every matching wildcard in load order. -/
def mergeStep (totals : String → Int) (input : List (String × Component))
    (dFrom dTo : Option (List (String × Component)))
    (wildcards : List (String × Component)) (c : Component) : Component :=
  let c1 := { c with download_count := totals c.id }
  let c2 :=
    match dictGet input c1.id with
    | some ic => (c1.merge none ic).1
    | none => c1
  let c3 :=
    match dFrom, dTo with
    | some f, some t =>
      match dictGet f c2.id, dictGet t c2.id with
      | some fc, some tc => (c2.merge (some fc) tc).1
      | _, _ => c2
    | _, _ => c2
  wildcards.foldl
    (fun acc kv => if Component.matches kv.2 acc then (acc.merge none kv.2).1 else acc)
    c3

/-- The remote components in output order:
`sorted(flathub_components.values(), key=lambda c: (-totals[c.id], c.sort_key))`. -/
def sortedRemote (totals : String → Int) (flathub : List Component) : List Component :=
  pySortBy (totKeyLt totals) flathub

/-- The main loop (update.py lines 421-469): partition into apps
(no `/` in the id) and other, assign 1-based per-partition ranks, and
collect the `include == "yes"` components for the filter, all in
sorted order.  Returns `(apps, other, filters)`. -/
def reportLoop (totals : String → Int) (input : List (String × Component))
    (dFrom dTo : Option (List (String × Component)))
    (wildcards : List (String × Component)) :
    Nat → Nat → List Component → List Component × List Component × List Component
  | _, _, [] => ([], [], [])
  | appR, othR, c :: rest =>
    let m := mergeStep totals input dFrom dTo wildcards c
    if '/' ∈ m.id.toList then
      let m' := { m with download_rank := othR }
      let r := reportLoop totals input dFrom dTo wildcards appR (othR + 1) rest
      (r.1, m' :: r.2.1, if m'.«include» = "yes" then m' :: r.2.2 else r.2.2)
    else
      let m' := { m with download_rank := appR }
      let r := reportLoop totals input dFrom dTo wildcards (appR + 1) othR rest
      (m' :: r.1, r.2.1, if m'.«include» = "yes" then m' :: r.2.2 else r.2.2)

/-- Assign consecutive 1-based ranks starting at `r` (the effect of the
per-partition rank counters of the main loop on one partition). -/
def rankMap : Nat → List Component → List Component
  | _, [] => []
  | r, c :: cs => { c with download_rank := r } :: rankMap (r + 1) cs

/-- The main loop applied to the sorted remote components with both
rank counters starting at 1. -/
def update_report_core (totals : String → Int) (flathub : List Component)
    (input : List (String × Component))
    (dFrom dTo : Option (List (String × Component)))
    (wildcards : List (String × Component)) :
    List Component × List Component × List Component :=
  reportLoop totals input dFrom dTo wildcards 1 1 (sortedRemote totals flathub)

/-- The fixed first lines of `filter.txt` (update.py lines 471-478). -/
def filterHeader : List (List Char) :=
  ["# Autogenerated, do not edit".toList,
   "# See https://pagure.io/fedora-flathub-filter".toList,
   "#".toList,
   "# Deny by default".toList,
   "deny *".toList]

/-- `"allow " + filt.filter_ref`; `none` models the assertion failure
inside `filter_ref`. -/
def allowLine (c : Component) : Option (List Char) :=
  match c.filter_ref with
  | some r => some ("allow ".toList ++ r.toList)
  | none => none

def allowLines : List Component → Option (List (List Char))
  | [] => some []
  | c :: cs =>
    match allowLine c, allowLines cs with
    | some l, some ls => some (l :: ls)
    | _, _ => none

/-- The full contents of `filter.txt` (update.py lines 471-480):
header, then one `allow` line per filter entry sorted by `sort_key`. -/
def filter_lines (filters : List Component) : Option (List (List Char)) :=
  match allowLines (pySortBy skLt filters) with
  | some ls => some (filterHeader ++ ls)
  | none => none

/-- The four visible output files. -/
structure ReportOutputs where
  wildcardLines : List (List Char)
  appsLines : List (List Char)
  otherLines : List (List Char)
  filterLines : List (List Char)
deriving Repr, DecidableEq

/-- A fatal run outcome: a curated-file parse error (`error()` exits
the process) or the `assert` in `filter_ref`. -/
inductive RunErr where
  | parse (e : ParseErr)
  | assertFail
deriving Repr, DecidableEq

def loadOptDir : Option CuratedDir → Except ParseErr (Option (List (String × Component)))
  | none => .ok none
  | some d =>
    match load_components d with
    | .error e => .error e
    | .ok c => .ok (some c)

/-- `update_report` (update.py lines 399-485) on already-fetched remote
data: every curated-file parse error aborts before any output is
produced; on success the four files are produced together (the four
`os.rename` calls at the end). -/
def update_report (totals : String → Int) (flathub : List Component)
    (input : CuratedDir) (dF dT : Option CuratedDir) :
    Except RunErr ReportOutputs :=
  match updated_wildcards input dF dT with
  | .error e => .error (.parse e)
  | .ok wildcards =>
    let ww := write_wildcard_components wildcards
    match load_components input with
    | .error e => .error (.parse e)
    | .ok inputC =>
      match loadOptDir dF with
      | .error e => .error (.parse e)
      | .ok dFC =>
        match loadOptDir dT with
        | .error e => .error (.parse e)
        | .ok dTC =>
          let core := update_report_core totals flathub inputC dFC dTC wildcards
          match filter_lines (ww.1 ++ core.2.2) with
          | none => .error .assertFail
          | some fl =>
            .ok ⟨ww.2, dumpComponents core.1, dumpComponents core.2.1, fl⟩

/-- The visible output files after a run: a fatal exit leaves the
previous files in place (no `.new` file is renamed). -/
def finalFiles (prev : ReportOutputs) : Except RunErr ReportOutputs → ReportOutputs
  | .error _ => prev
  | .ok o => o

/-! ### Validity of curated text (for the round-trip claim) -/

/-- A curated `comments` value that survives a dump/parse cycle: one
line, no surrounding whitespace (the parser strips), and not starting
with `[` (such values are reserved and dropped by the parser). -/
def ValidComments (s : String) : Prop :=
  '\n' ∉ s.toList ∧ '\r' ∉ s.toList ∧ s.toList.dropWhile pySpace = s.toList ∧
  dropTrailing s.toList = s.toList ∧ s.toList.head? ≠ some '['

instance (s : String) : Decidable (ValidComments s) := by
  unfold ValidComments; infer_instance

/-- Remote string fields only need to stay on one line; their parsed
values are discarded. -/
def ValidOptStr : Option String → Prop
  | none => True
  | some s => '\n' ∉ s.toList ∧ '\r' ∉ s.toList

instance (v : Option String) : Decidable (ValidOptStr v) := by
  unfold ValidOptStr; cases v <;> infer_instance

/-- A component whose dump is valid curated text. -/
def ValidComponent (c : Component) : Prop :=
  c.isWildcard = false ∧
  '\n' ∉ c.id.toList ∧ '\r' ∉ c.id.toList ∧
  ValidComments c.comments ∧
  (c.«include» = "" ∨ c.«include» = "yes" ∨ c.«include» = "no") ∧
  ValidOptStr c.name ∧ ValidOptStr c.homepage ∧
  ValidOptStr c.license ∧ ValidOptStr c.runtime

instance (c : Component) : Decidable (ValidComponent c) := by
  unfold ValidComponent; infer_instance

/-! ## Lemmas about `splitChars` -/

theorem splitChars_not_mem {sep : Char} :
    ∀ {a : List Char}, sep ∉ a → splitChars sep a = [a]
  | [], _ => rfl
  | c :: cs, h => by
    have hc : ¬ c = sep := fun e => h (e ▸ List.mem_cons_self c cs)
    have ih := splitChars_not_mem (a := cs) (fun m => h (List.mem_cons_of_mem _ m))
    simp only [splitChars, if_neg hc, ih]

theorem splitChars_append {sep : Char} :
    ∀ {a : List Char} (b : List Char), sep ∉ a →
      splitChars sep (a ++ sep :: b) = a :: splitChars sep b
  | [], b, _ => by simp [splitChars]
  | c :: cs, b, h => by
    have hc : ¬ c = sep := fun e => h (e ▸ List.mem_cons_self c cs)
    have ih := splitChars_append (a := cs) b (fun m => h (List.mem_cons_of_mem _ m))
    simp only [List.cons_append, splitChars, if_neg hc, List.append_eq, ih]

theorem mk_toList (s : String) : String.mk s.toList = s := rfl

theorem toList_mk (l : List Char) : (String.mk l).toList = l := rfl

/-! ## C7: id derivation -/

/-- C7: `id_from_ref` maps `app/<id>/...` to `<id>`, maps
`runtime/<id>/<arch>/<branch>` to `<id>/<branch>`, and fails fatally on
any other leading token; in particular the two spec examples hold. -/
theorem C7_id_derivation :
    (∀ (idStr rest : String), '/' ∉ idStr.toList →
      id_from_ref (String.mk ("app".toList ++ '/' :: (idStr.toList ++ '/' :: rest.toList))) =
        some idStr) ∧
    (∀ (idStr arch branch : String),
      '/' ∉ idStr.toList → '/' ∉ arch.toList → '/' ∉ branch.toList →
      id_from_ref (String.mk
          ("runtime".toList ++ '/' ::
            (idStr.toList ++ '/' :: (arch.toList ++ '/' :: branch.toList)))) =
        some (String.mk (idStr.toList ++ '/' :: branch.toList))) ∧
    (∀ (tok rest : String),
      tok.toList ≠ "app".toList → tok.toList ≠ "runtime".toList → '/' ∉ tok.toList →
      id_from_ref (String.mk (tok.toList ++ '/' :: rest.toList)) = none) ∧
    id_from_ref "app/org.foo.Bar/x86_64/stable" = some "org.foo.Bar" ∧
    id_from_ref "runtime/org.foo.Platform/x86_64/21" = some "org.foo.Platform/21" := by
  refine ⟨?_, ?_, ?_, by decide, by decide⟩
  · intro idStr rest h
    have happ : ('/' : Char) ∉ "app".toList := by decide
    unfold id_from_ref
    rw [toList_mk, splitChars_append _ happ, splitChars_append _ h]
    rfl
  · intro idStr arch branch h1 h2 h3
    have hrt : ('/' : Char) ∉ "runtime".toList := by decide
    unfold id_from_ref
    rw [toList_mk, splitChars_append _ hrt, splitChars_append _ h1,
      splitChars_append _ h2, splitChars_not_mem h3]
    rfl
  · intro tok rest h1 h2 h
    unfold id_from_ref
    rw [toList_mk, splitChars_append _ h]
    dsimp only
    rw [if_neg h1, if_neg h2]

theorem C7_id_derivation_witness :
    id_from_ref (String.mk ("app".toList ++ '/' ::
        ("org.gnome.Maps".toList ++ '/' :: "x86_64/stable".toList))) =
      some "org.gnome.Maps" ∧
    id_from_ref (String.mk ("runtime".toList ++ '/' ::
        ("org.fdo.Platform".toList ++ '/' :: ("x86_64".toList ++ '/' :: "21".toList)))) =
      some (String.mk ("org.fdo.Platform".toList ++ '/' :: "21".toList)) ∧
    id_from_ref (String.mk ("deploy".toList ++ '/' :: "org.x".toList)) = none :=
  ⟨C7_id_derivation.1 "org.gnome.Maps" "x86_64/stable" (by decide),
   C7_id_derivation.2.1 "org.fdo.Platform" "x86_64" "21"
     (by decide) (by decide) (by decide),
   C7_id_derivation.2.2.1 "deploy" "org.x" (by decide) (by decide) (by decide)⟩

/-! ## Lemmas for the wildcard matcher (C4) -/

theorem starAux_congr {f g : List Char → Bool} (h : ∀ s, f s = g s) :
    ∀ s, starAux f s = starAux g s
  | [] => by simp only [starAux, h]
  | x :: xs => by simp only [starAux, h, starAux_congr h xs]

theorem rmatch_compileSeg : ∀ (p s : List Char), rmatch (compileSeg p) s = globSeg p s
  | [], _ => rfl
  | c :: cs, s => by
    by_cases hc : c = '*'
    · subst hc
      simp only [compileSeg, if_pos rfl, rmatch, globSeg]
      exact starAux_congr (fun s' => rmatch_compileSeg cs s') s
    · simp only [compileSeg, if_neg hc, rmatch, globSeg]
      cases s with
      | nil => rfl
      | cons x xs => simp only [rmatch_compileSeg cs xs]

theorem starAux_no_slash {f : List Char → Bool} (hf : ∀ s, f s = true → '/' ∉ s) :
    ∀ s, starAux f s = true → '/' ∉ s
  | [], _ => by simp
  | x :: xs, h => by
    simp only [starAux, Bool.or_eq_true, Bool.and_eq_true] at h
    rcases h with h | ⟨hx, h⟩
    · exact hf _ h
    · intro hm
      rcases List.mem_cons.mp hm with he | hm'
      · simp [← he] at hx
      · exact starAux_no_slash hf xs h hm'

theorem rmatch_no_slash : ∀ {ts : List RTok}, RTok.lit '/' ∉ ts →
    ∀ {s : List Char}, rmatch ts s = true → '/' ∉ s
  | [], _, s, h => by
    simp only [rmatch, List.isEmpty_iff] at h
    simp [h]
  | RTok.lit c :: ps, hts, s, h => by
    cases s with
    | nil => simp
    | cons x xs =>
      simp only [rmatch, Bool.and_eq_true, decide_eq_true_eq] at h
      have hc : c ≠ '/' := by
        intro e
        exact hts (by simp [e])
      have hps : RTok.lit '/' ∉ ps := fun m => hts (List.mem_cons_of_mem _ m)
      intro hm
      rcases List.mem_cons.mp hm with he | hm'
      · exact hc (by rw [h.1, ← he])
      · exact rmatch_no_slash hps h.2 hm'
  | RTok.star :: ps, hts, s, h => by
    have hps : RTok.lit '/' ∉ ps := fun m => hts (List.mem_cons_of_mem _ m)
    exact starAux_no_slash (fun s' h' => rmatch_no_slash hps h') s h

theorem compileSeg_no_slash {p : List Char} (h : '/' ∉ p) :
    RTok.lit '/' ∉ compileSeg p := by
  induction p with
  | nil => simp [compileSeg]
  | cons c cs ih =>
    have hc : c ≠ '/' := fun e => h (by simp [e])
    have ih' := ih (fun m => h (List.mem_cons_of_mem _ m))
    intro hm
    simp only [compileSeg] at hm
    rcases List.mem_cons.mp hm with he | hm'
    · by_cases hstar : c = '*' <;> simp [hstar] at he
      exact hc he.symm
    · exact ih' hm'

theorem globSeg_no_slash {p s : List Char} (hp : '/' ∉ p)
    (h : globSeg p s = true) : '/' ∉ s := by
  rw [← rmatch_compileSeg] at h
  exact rmatch_no_slash (compileSeg_no_slash hp) h

theorem splitChars_ne_nil (sep : Char) : ∀ (s : List Char), splitChars sep s ≠ []
  | [] => by simp [splitChars]
  | c :: cs => by
    by_cases hc : c = sep
    · simp [splitChars, hc]
    · simp only [splitChars, if_neg hc]
      cases heq : splitChars sep cs with
      | nil => exact absurd heq (splitChars_ne_nil sep cs)
      | cons h0 t0 => simp

theorem splitChars_sep_not_mem (sep : Char) :
    ∀ (s : List Char), ∀ seg ∈ splitChars sep s, sep ∉ seg := by
  intro s
  induction s with
  | nil => simp [splitChars]
  | cons c cs ih =>
    intro seg hseg
    by_cases hc : c = sep
    · rw [splitChars, if_pos hc] at hseg
      rcases List.mem_cons.mp hseg with he | hm
      · simp [he]
      · exact ih seg hm
    · rw [splitChars, if_neg hc] at hseg
      cases heq : splitChars sep cs with
      | nil => exact absurd heq (splitChars_ne_nil sep cs)
      | cons h0 t0 =>
        rw [heq] at hseg
        rcases List.mem_cons.mp hseg with he | hm
        · subst he
          intro hmem
          rcases List.mem_cons.mp hmem with he' | hm'
          · exact hc he'.symm
          · exact ih h0 (heq ▸ List.mem_cons_self h0 t0) hm'
        · exact ih seg (heq ▸ List.mem_cons_of_mem _ hm)

theorem splitChars_cases (sep : Char) :
    ∀ (s : List Char), ∃ c0 cs, splitChars sep s = c0 :: cs ∧ sep ∉ c0 ∧
      ((cs = [] ∧ s = c0) ∨ ∃ s2, s = c0 ++ sep :: s2 ∧ splitChars sep s2 = cs)
  | [] => ⟨[], [], rfl, by simp, Or.inl ⟨rfl, rfl⟩⟩
  | c :: cs => by
    obtain ⟨c0, cs0, heq, hns, hrest⟩ := splitChars_cases sep cs
    by_cases hc : c = sep
    · refine ⟨[], c0 :: cs0, ?_, by simp, Or.inr ⟨cs, by simp [hc], heq⟩⟩
      rw [splitChars, if_pos hc, heq]
    · refine ⟨c :: c0, cs0, ?_, ?_, ?_⟩
      · rw [splitChars, if_neg hc, heq]
      · intro hm
        rcases List.mem_cons.mp hm with he | hm'
        · exact hc he.symm
        · exact hns hm'
      · rcases hrest with ⟨he1, he2⟩ | ⟨s2, he1, he2⟩
        · exact Or.inl ⟨he1, by rw [he2]⟩
        · exact Or.inr ⟨s2, by rw [he1]; rfl, he2⟩

theorem starAux_spec (f : List Char → Bool) :
    ∀ (s : List Char), starAux f s = true ↔
      ∃ s1 s2, s = s1 ++ s2 ∧ (∀ c ∈ s1, c ≠ '/') ∧ f s2 = true
  | [] => by
    simp only [starAux]
    constructor
    · intro h
      exact ⟨[], [], rfl, by simp, h⟩
    · rintro ⟨s1, s2, heq, -, hf⟩
      obtain ⟨h1, h2⟩ := List.append_eq_nil.mp heq.symm
      subst h1; subst h2; exact hf
  | x :: xs => by
    simp only [starAux, Bool.or_eq_true, Bool.and_eq_true, Bool.not_eq_true',
      decide_eq_false_iff_not]
    constructor
    · rintro (h | ⟨hx, h⟩)
      · exact ⟨[], x :: xs, rfl, by simp, h⟩
      · obtain ⟨s1, s2, heq, hns, hf⟩ := (starAux_spec f xs).mp h
        refine ⟨x :: s1, s2, by rw [heq, List.cons_append], ?_, hf⟩
        intro a ha
        rcases List.mem_cons.mp ha with he | hm
        · rw [he]; exact hx
        · exact hns a hm
    · rintro ⟨s1, s2, heq, hns, hf⟩
      cases s1 with
      | nil =>
        simp only [List.nil_append] at heq
        exact Or.inl (heq ▸ hf)
      | cons y ys =>
        injection heq with h1 h2
        subst h1
        refine Or.inr ⟨hns x (List.mem_cons_self _ _), ?_⟩
        exact (starAux_spec f xs).mpr ⟨ys, s2, h2, fun a ha => hns a (List.mem_cons_of_mem _ ha), hf⟩

theorem seg_split (rest : List RTok) :
    ∀ (p s : List Char), '/' ∉ p →
      (rmatch (compileSeg p ++ RTok.lit '/' :: rest) s = true ↔
        ∃ s1 s2, s = s1 ++ '/' :: s2 ∧ globSeg p s1 = true ∧ rmatch rest s2 = true) := by
  intro p
  induction p with
  | nil =>
    intro s _
    cases s with
    | nil =>
      constructor
      · intro h; simp [compileSeg, rmatch] at h
      · rintro ⟨s1, s2, heq, -, -⟩; cases s1 <;> simp at heq
    | cons x xs =>
      simp only [compileSeg, List.nil_append, rmatch, Bool.and_eq_true, decide_eq_true_eq]
      constructor
      · rintro ⟨hx, hr⟩
        exact ⟨[], xs, by rw [← hx]; rfl, by simp [globSeg], hr⟩
      · rintro ⟨s1, s2, heq, hg, hr⟩
        have hs1 : s1 = [] := by
          cases s1 with
          | nil => rfl
          | cons a as => simp [globSeg] at hg
        subst hs1
        simp only [List.nil_append] at heq
        injection heq with h1 h2
        subst h1; subst h2
        exact ⟨rfl, hr⟩
  | cons c p' ih =>
    intro s hp
    have hp' : ('/' : Char) ∉ p' := fun m => hp (List.mem_cons_of_mem _ m)
    by_cases hstar : c = '*'
    · subst hstar
      simp only [compileSeg, if_pos rfl, List.cons_append, rmatch]
      rw [starAux_spec]
      constructor
      · rintro ⟨u, v, hs, hu, hv⟩
        obtain ⟨v1, v2, hv12, hg, hr⟩ := (ih v hp').mp hv
        refine ⟨u ++ v1, v2, ?_, ?_, hr⟩
        · rw [hs, hv12, List.append_assoc]
        · simp only [globSeg, if_pos rfl]
          exact (starAux_spec (globSeg p') (u ++ v1)).mpr ⟨u, v1, rfl, hu, hg⟩
      · rintro ⟨s1, s2, hs, hg, hr⟩
        simp only [globSeg, if_pos rfl] at hg
        obtain ⟨u, w, huw, hu, hw⟩ := (starAux_spec (globSeg p') s1).mp hg
        refine ⟨u, w ++ '/' :: s2, ?_, hu, ?_⟩
        · rw [hs, huw, List.append_assoc]
        · exact (ih (w ++ '/' :: s2) hp').mpr ⟨w, s2, rfl, hw, hr⟩
    · have hc : c ≠ '/' := fun e => hp (by simp [e])
      simp only [compileSeg, if_neg hstar, List.cons_append, rmatch]
      cases s with
      | nil =>
        constructor
        · intro h; simp at h
        · rintro ⟨s1, s2, heq, -, -⟩; cases s1 <;> simp at heq
      | cons x xs =>
        simp only [Bool.and_eq_true, decide_eq_true_eq]
        constructor
        · rintro ⟨hcx, hr⟩
          obtain ⟨s1, s2, heq, hg, hrest⟩ := (ih xs hp').mp hr
          refine ⟨x :: s1, s2, by rw [heq, List.cons_append], ?_, hrest⟩
          simp only [globSeg, if_neg hstar, Bool.and_eq_true, decide_eq_true_eq]
          exact ⟨hcx, hg⟩
        · rintro ⟨s1, s2, heq, hg, hrest⟩
          cases s1 with
          | nil => simp [globSeg, hstar] at hg
          | cons y ys =>
            simp only [globSeg, if_neg hstar, Bool.and_eq_true, decide_eq_true_eq] at hg
            injection heq with h1 h2
            subst h1
            exact ⟨hg.1, (ih xs hp').mpr ⟨ys, s2, h2, hg.2, hrest⟩⟩

theorem rmatch_joinSegs : ∀ (segs : List (List Char)) (s : List Char),
    segs ≠ [] → (∀ seg ∈ segs, '/' ∉ seg) →
    (rmatch (joinSegs (segs.map compileSeg)) s = true ↔
      List.Forall₂ (fun p c => globSeg p c = true) segs (splitChars '/' s))
  | [], _, hne, _ => absurd rfl hne
  | [p], s, _, hsl => by
    simp only [List.map, joinSegs]
    rw [rmatch_compileSeg]
    have hp : ('/' : Char) ∉ p := hsl p (List.mem_cons_self _ _)
    constructor
    · intro h
      rw [splitChars_not_mem (globSeg_no_slash hp h)]
      exact List.Forall₂.cons h List.Forall₂.nil
    · intro h
      obtain ⟨c0, cs, heq, hns, hrest⟩ := splitChars_cases '/' s
      rw [heq] at h
      cases h with
      | cons hg hnil =>
        cases hnil
        rcases hrest with ⟨-, hs⟩ | ⟨s2, -, hsp⟩
        · rw [hs]; exact hg
        · exact absurd hsp (splitChars_ne_nil '/' s2)
  | p :: q :: rest, s, _, hsl => by
    have hp : ('/' : Char) ∉ p := hsl p (List.mem_cons_self _ _)
    have hsl' : ∀ seg ∈ q :: rest, ('/' : Char) ∉ seg :=
      fun seg m => hsl seg (List.mem_cons_of_mem _ m)
    have hne' : q :: rest ≠ ([] : List (List Char)) := by simp
    simp only [List.map, joinSegs]
    rw [seg_split _ p s hp]
    constructor
    · rintro ⟨s1, s2, hs, hg, hr⟩
      rw [hs, splitChars_append _ (globSeg_no_slash hp hg)]
      exact List.Forall₂.cons hg ((rmatch_joinSegs (q :: rest) s2 hne' hsl').mp hr)
    · intro h
      obtain ⟨c0, cs, heq, hns, hrest⟩ := splitChars_cases '/' s
      rw [heq] at h
      cases h with
      | cons hg htail =>
        have hcs : cs ≠ [] := by
          intro e
          rw [e] at htail
          cases htail
        rcases hrest with ⟨he, -⟩ | ⟨s2, hs, hsp⟩
        · exact absurd he hcs
        · exact ⟨c0, s2, hs, hg,
            (rmatch_joinSegs (q :: rest) s2 hne' hsl').mpr (by rw [hsp]; exact htail)⟩

/-! ## C4: wildcard matching -/

/-- C4: `WildcardComponent.matches` holds exactly when the component's
full id matches the pattern end-to-end, with each `/`-separated
pattern segment anchored to the same `/`-delimited position, `*`
matching zero or more non-`/` characters and every other character
matching literally (`wildcardSpecMatches`); and the spec's three
examples. -/
theorem C4_wildcard_matching :
    (∀ (pat c : Component), Component.matches pat c = wildcardSpecMatches pat.id c.id) ∧
    Component.matches { id := "org.foo.*" } { id := "org.foo.Bar" } = true ∧
    Component.matches { id := "org.foo.*" } { id := "org.foo.Bar/21" } = false ∧
    Component.matches { id := "org.foo.*/21" } { id := "org.foo.Bar/21" } = true := by
  refine ⟨?_, by decide, by decide, by decide⟩
  intro pat c
  rw [Bool.eq_iff_iff]
  unfold Component.matches wildcardSpecMatches compilePattern
  rw [rmatch_joinSegs _ _ (splitChars_ne_nil _ _) (splitChars_sep_not_mem _ _),
    List.forall₂_iff_zip]
  simp only [Bool.and_eq_true, decide_eq_true_eq, List.all_eq_true]
  constructor
  · rintro ⟨hlen, hzip⟩
    exact ⟨hlen, fun pc hm => hzip hm⟩
  · rintro ⟨hlen, hzip⟩
    refine ⟨hlen, ?_⟩
    intro a b hm
    exact hzip (a, b) hm

/-! ## Order lemmas for the sort keys -/

theorem charListLt_irrefl : ∀ (a : List Char), charListLt a a = false
  | [] => rfl
  | c :: cs => by simp [charListLt, charListLt_irrefl cs]

theorem charListLt_asymm : ∀ {a b : List Char},
    charListLt a b = true → charListLt b a = false
  | [], [], h => by simp [charListLt] at h
  | [], _ :: _, _ => rfl
  | _ :: _, [], h => by simp [charListLt] at h
  | c :: cs, d :: ds, h => by
    by_cases hcd : c = d
    · subst hcd
      simp only [charListLt, if_pos rfl] at h ⊢
      exact charListLt_asymm h
    · simp only [charListLt, if_neg hcd, decide_eq_true_eq] at h
      have hdc : ¬ d = c := fun e => hcd e.symm
      simp only [charListLt, if_neg hdc, decide_eq_false_iff_not]
      exact lt_asymm h

theorem charListLt_trans : ∀ {a b c : List Char},
    charListLt a b = true → charListLt b c = true → charListLt a c = true
  | [], [], _, hab, _ => by simp [charListLt] at hab
  | [], _ :: _, [], _, hbc => by simp [charListLt] at hbc
  | [], _ :: _, _ :: _, _, _ => rfl
  | _ :: _, [], _, hab, _ => by simp [charListLt] at hab
  | _ :: _, _ :: _, [], _, hbc => by simp [charListLt] at hbc
  | x :: xs, y :: ys, z :: zs, hab, hbc => by
    by_cases hxy : x = y <;> by_cases hyz : y = z
    · subst hxy; subst hyz
      simp only [charListLt, if_pos rfl] at hab hbc ⊢
      exact charListLt_trans hab hbc
    · subst hxy
      simp only [charListLt, if_pos rfl] at hab
      simp only [charListLt, if_neg hyz, decide_eq_true_eq] at hbc
      simp only [charListLt, if_neg hyz, decide_eq_true_eq]
      exact hbc
    · subst hyz
      simp only [charListLt, if_neg hxy, decide_eq_true_eq] at hab
      simp only [charListLt, if_neg hxy, decide_eq_true_eq]
      exact hab
    · simp only [charListLt, if_neg hxy, decide_eq_true_eq] at hab
      simp only [charListLt, if_neg hyz, decide_eq_true_eq] at hbc
      have hxz : x < z := lt_trans hab hbc
      have hne : ¬ x = z := fun e => absurd (e ▸ hxz) (lt_irrefl _)
      simp only [charListLt, if_neg hne, decide_eq_true_eq]
      exact hxz

theorem pyStrLt_asymm {a b : String} (h : pyStrLt a b = true) : pyStrLt b a = false :=
  charListLt_asymm h

theorem pyStrLt_trans {a b c : String} (hab : pyStrLt a b = true)
    (hbc : pyStrLt b c = true) : pyStrLt a c = true :=
  charListLt_trans hab hbc

theorem pyStrLt_ne {a b : String} (h : pyStrLt a b = true) : a ≠ b := by
  intro e
  subst e
  exact absurd h (by simp [pyStrLt, charListLt_irrefl])

theorem listStrLt_asymm : ∀ {a b : List String},
    listStrLt a b = true → listStrLt b a = false
  | [], [], h => by simp [listStrLt] at h
  | [], _ :: _, _ => rfl
  | _ :: _, [], h => by simp [listStrLt] at h
  | a :: as, b :: bs, h => by
    by_cases hab : a = b
    · subst hab
      simp only [listStrLt, if_pos rfl] at h ⊢
      exact listStrLt_asymm h
    · simp only [listStrLt, if_neg hab] at h
      have hba : ¬ b = a := fun e => hab e.symm
      simp only [listStrLt, if_neg hba]
      exact pyStrLt_asymm h

theorem listStrLt_trans : ∀ {a b c : List String},
    listStrLt a b = true → listStrLt b c = true → listStrLt a c = true
  | [], [], _, hab, _ => by simp [listStrLt] at hab
  | [], _ :: _, [], _, hbc => by simp [listStrLt] at hbc
  | [], _ :: _, _ :: _, _, _ => rfl
  | _ :: _, [], _, hab, _ => by simp [listStrLt] at hab
  | _ :: _, _ :: _, [], _, hbc => by simp [listStrLt] at hbc
  | a :: as, b :: bs, c :: cs, hab, hbc => by
    by_cases h1 : a = b <;> by_cases h2 : b = c
    · subst h1; subst h2
      simp only [listStrLt, if_pos rfl] at hab hbc ⊢
      exact listStrLt_trans hab hbc
    · subst h1
      simp only [listStrLt, if_pos rfl] at hab
      simp only [listStrLt, if_neg h2] at hbc ⊢
      exact hbc
    · subst h2
      simp only [listStrLt, if_neg h1] at hab
      simp only [listStrLt, if_neg h1]
      exact hab
    · simp only [listStrLt, if_neg h1] at hab
      simp only [listStrLt, if_neg h2] at hbc
      have hac : pyStrLt a c = true := pyStrLt_trans hab hbc
      simp only [listStrLt, if_neg (pyStrLt_ne hac)]
      exact hac

theorem totKeyLt_asymm (totals : String → Int) {a b : Component}
    (h : totKeyLt totals a b = true) : totKeyLt totals b a = false := by
  unfold totKeyLt at h ⊢
  by_cases he : -(totals a.id) = -(totals b.id)
  · rw [if_pos he] at h
    rw [if_pos he.symm]
    exact listStrLt_asymm h
  · rw [if_neg he] at h
    have hlt : -(totals a.id) < -(totals b.id) := by simpa using h
    have hne : ¬ -(totals b.id) = -(totals a.id) := fun e => he e.symm
    rw [if_neg hne]
    simp only [decide_eq_false_iff_not]
    omega

theorem totKeyLt_trans (totals : String → Int) {a b c : Component}
    (hab : totKeyLt totals a b = true) (hbc : totKeyLt totals b c = true) :
    totKeyLt totals a c = true := by
  unfold totKeyLt at hab hbc ⊢
  by_cases h1 : -(totals a.id) = -(totals b.id) <;>
    by_cases h2 : -(totals b.id) = -(totals c.id)
  · rw [if_pos h1] at hab
    rw [if_pos h2] at hbc
    rw [if_pos (h1.trans h2)]
    exact listStrLt_trans hab hbc
  · rw [if_neg h2] at hbc
    have : ¬ -(totals a.id) = -(totals c.id) := by
      simp only [decide_eq_true_eq] at hbc
      omega
    rw [if_neg this]
    simp only [decide_eq_true_eq] at hbc ⊢
    omega
  · rw [if_neg h1] at hab
    have : ¬ -(totals a.id) = -(totals c.id) := by
      simp only [decide_eq_true_eq] at hab
      omega
    rw [if_neg this]
    simp only [decide_eq_true_eq] at hab ⊢
    omega
  · rw [if_neg h1] at hab
    rw [if_neg h2] at hbc
    simp only [decide_eq_true_eq] at hab hbc
    have : ¬ -(totals a.id) = -(totals c.id) := by omega
    rw [if_neg this]
    simp only [decide_eq_true_eq]
    omega

theorem skLt_asymm {a b : Component} (h : skLt a b = true) : skLt b a = false :=
  listStrLt_asymm h

theorem skLt_trans {a b c : Component} (hab : skLt a b = true)
    (hbc : skLt b c = true) : skLt a c = true :=
  listStrLt_trans hab hbc

/-! ## Generic lemmas about the stable insertion sort -/

theorem mem_insertSorted {lt : α → α → Bool} {x b : α} :
    ∀ {l : List α}, b ∈ insertSorted lt x l ↔ b = x ∨ b ∈ l
  | [] => by simp [insertSorted]
  | y :: ys => by
    rw [insertSorted]
    split
    · simp [List.mem_cons]
    · simp only [List.mem_cons, mem_insertSorted (l := ys)]
      tauto

theorem insertSorted_pairwise {lt : α → α → Bool}
    (htrans : ∀ a b c, lt a b = true → lt b c = true → lt a c = true)
    (hasymm : ∀ a b, lt a b = true → lt b a = false) (x : α) :
    ∀ {l : List α}, l.Pairwise (fun a b => lt b a = false) →
      (insertSorted lt x l).Pairwise (fun a b => lt b a = false)
  | [], _ => by simp [insertSorted]
  | y :: ys, h => by
    obtain ⟨hh, ht⟩ := List.pairwise_cons.mp h
    rw [insertSorted]
    by_cases hxy : lt x y = true
    · rw [if_pos hxy]
      refine List.pairwise_cons.mpr ⟨?_, h⟩
      intro b hb
      rcases List.mem_cons.mp hb with he | hm
      · subst he
        exact hasymm _ _ hxy
      · cases htb : lt b x
        · rfl
        · have h1 := htrans b x y htb hxy
          rw [hh b hm] at h1
          cases h1
    · rw [if_neg hxy]
      refine List.pairwise_cons.mpr
        ⟨?_, insertSorted_pairwise htrans hasymm x ht⟩
      intro b hb
      rcases mem_insertSorted.mp hb with he | hm
      · subst he
        cases hLt : lt b y
        · rfl
        · exact absurd hLt hxy
      · exact hh b hm

theorem pySortBy_pairwise_aux {lt : α → α → Bool}
    (htrans : ∀ a b c, lt a b = true → lt b c = true → lt a c = true)
    (hasymm : ∀ a b, lt a b = true → lt b a = false) :
    ∀ (l acc : List α), acc.Pairwise (fun a b => lt b a = false) →
      (l.foldl (fun acc x => insertSorted lt x acc) acc).Pairwise
        (fun a b => lt b a = false)
  | [], _, h => h
  | x :: xs, _, h =>
    pySortBy_pairwise_aux htrans hasymm xs _
      (insertSorted_pairwise htrans hasymm x h)

theorem pySortBy_pairwise (lt : α → α → Bool)
    (htrans : ∀ a b c, lt a b = true → lt b c = true → lt a c = true)
    (hasymm : ∀ a b, lt a b = true → lt b a = false) (l : List α) :
    (pySortBy lt l).Pairwise (fun a b => lt b a = false) :=
  pySortBy_pairwise_aux htrans hasymm l [] (by simp)

theorem insertSorted_perm {lt : α → α → Bool} (x : α) :
    ∀ (l : List α), List.Perm (insertSorted lt x l) (x :: l)
  | [] => by simp [insertSorted]
  | y :: ys => by
    rw [insertSorted]
    split
    · exact List.Perm.refl _
    · exact ((insertSorted_perm x ys).cons y).trans (List.Perm.swap x y ys)

theorem pySortBy_perm_aux {lt : α → α → Bool} :
    ∀ (l acc : List α),
      List.Perm (l.foldl (fun acc x => insertSorted lt x acc) acc) (l ++ acc)
  | [], _ => by simp
  | x :: xs, acc => by
    rw [List.foldl_cons]
    refine (pySortBy_perm_aux xs _).trans ?_
    refine (List.Perm.append_left xs (insertSorted_perm x acc)).trans ?_
    exact List.perm_middle

theorem pySortBy_perm (lt : α → α → Bool) (l : List α) :
    List.Perm (pySortBy lt l) l := by
  simpa using @pySortBy_perm_aux _ lt l []

/-! ## Lemmas about `rankMap`, `mergeStep` and the main loop -/

theorem rankMap_map_rank : ∀ (r : Nat) (l : List Component),
    (rankMap r l).map (fun c => c.download_rank) = List.range' r l.length
  | _, [] => rfl
  | r, c :: cs => by
    simp [rankMap, List.range', rankMap_map_rank (r + 1) cs]

theorem rankMap_length : ∀ (r : Nat) (l : List Component),
    (rankMap r l).length = l.length
  | _, [] => rfl
  | r, c :: cs => by simp [rankMap, rankMap_length (r + 1) cs]

theorem rankMap_mem : ∀ {r : Nat} {l : List Component} {b : Component},
    b ∈ rankMap r l → ∃ c ∈ l, ∃ (k : Nat), b = { c with download_rank := k }
  | _, [], _, h => by simp [rankMap] at h
  | r, c :: cs, b, h => by
    rw [rankMap] at h
    rcases List.mem_cons.mp h with he | hm
    · exact ⟨c, List.mem_cons_self _ _, r, he⟩
    · obtain ⟨c', hc', k, he⟩ := rankMap_mem hm
      exact ⟨c', List.mem_cons_of_mem _ hc', k, he⟩

theorem rankMap_pairwise {R : Component → Component → Prop}
    (hR : ∀ (a b : Component) (n m : Nat),
      R a b → R { a with download_rank := n } { b with download_rank := m }) :
    ∀ (r : Nat) {l : List Component}, l.Pairwise R → (rankMap r l).Pairwise R
  | _, [], _ => List.Pairwise.nil
  | r, c :: cs, h => by
    obtain ⟨hh, ht⟩ := List.pairwise_cons.mp h
    rw [rankMap]
    refine List.pairwise_cons.mpr ⟨?_, rankMap_pairwise hR (r + 1) ht⟩
    intro b hb
    obtain ⟨c', hc', k, he⟩ := rankMap_mem hb
    subst he
    exact hR c c' r k (hh c' hc')

theorem merge_id (self : Component) (base : Option Component) (other : Component) :
    ((self.merge base other).1).id = self.id := by
  unfold Component.merge mergeField
  dsimp only
  repeat' split
  all_goals rfl

theorem foldl_wildcards_id :
    ∀ (w : List (String × Component)) (acc : Component),
      (w.foldl (fun acc kv =>
        if Component.matches kv.2 acc then (acc.merge none kv.2).1 else acc) acc).id =
        acc.id
  | [], _ => rfl
  | kv :: rest, acc => by
    rw [List.foldl_cons, foldl_wildcards_id rest]
    split
    · exact merge_id acc none kv.2
    · rfl

theorem mergeStep_id (totals : String → Int) (input : List (String × Component))
    (dFrom dTo : Option (List (String × Component)))
    (wildcards : List (String × Component)) (c : Component) :
    (mergeStep totals input dFrom dTo wildcards c).id = c.id := by
  unfold mergeStep
  rw [foldl_wildcards_id]
  repeat' split
  all_goals simp [merge_id]

theorem totKeyLt_congr (totals : String → Int) {a b a' b' : Component}
    (ha : a.id = a'.id) (hb : b.id = b'.id) :
    totKeyLt totals a b = totKeyLt totals a' b' := by
  unfold totKeyLt Component.sort_key
  rw [ha, hb]

theorem reportLoop_apps_other (totals : String → Int)
    (input : List (String × Component))
    (dFrom dTo : Option (List (String × Component)))
    (wildcards : List (String × Component)) :
    ∀ (cs : List Component) (appR othR : Nat),
      (reportLoop totals input dFrom dTo wildcards appR othR cs).1 =
        rankMap appR ((cs.map (mergeStep totals input dFrom dTo wildcards)).filter
          (fun c => !decide ('/' ∈ c.id.toList))) ∧
      (reportLoop totals input dFrom dTo wildcards appR othR cs).2.1 =
        rankMap othR ((cs.map (mergeStep totals input dFrom dTo wildcards)).filter
          (fun c => decide ('/' ∈ c.id.toList)))
  | [], _, _ => ⟨rfl, rfl⟩
  | c :: cs, appR, othR => by
    by_cases h : '/' ∈ (mergeStep totals input dFrom dTo wildcards c).id.toList
    · have ih := reportLoop_apps_other totals input dFrom dTo wildcards cs appR (othR + 1)
      rw [reportLoop]
      refine ⟨?_, ?_⟩
      · rw [if_pos h, List.map_cons,
          List.filter_cons_of_neg (p := fun (c' : Component) => !decide ('/' ∈ c'.id.toList)) (by simpa using h)]
        exact ih.1
      · rw [if_pos h, List.map_cons,
          List.filter_cons_of_pos (p := fun (c' : Component) => decide ('/' ∈ c'.id.toList)) (by simpa using h),
          rankMap]
        dsimp only
        rw [ih.2]
    · have ih := reportLoop_apps_other totals input dFrom dTo wildcards cs (appR + 1) othR
      rw [reportLoop]
      refine ⟨?_, ?_⟩
      · rw [if_neg h, List.map_cons,
          List.filter_cons_of_pos (p := fun (c' : Component) => !decide ('/' ∈ c'.id.toList)) (by simpa using h),
          rankMap]
        dsimp only
        rw [ih.1]
      · rw [if_neg h, List.map_cons,
          List.filter_cons_of_neg (p := fun (c' : Component) => decide ('/' ∈ c'.id.toList)) (by simpa using h)]
        exact ih.2

/-! ## C6: ranking and partition -/

/-- C6: the main loop writes every merged component without `/` in its
id to the apps output and every one with `/` to the other output, each
partition keeping the `(-download_count, sort_key)` ascending order of
the sorted stream, with `download_rank` the 1-based position inside its
own partition; and the spec's `{A:5, B:5, C:10}` example ranks `C`
first and then `A`, `B` in ascending id order. -/
theorem C6_ranking_partition :
    (∀ (totals : String → Int) (flathub : List Component)
      (input : List (String × Component))
      (dFrom dTo : Option (List (String × Component)))
      (wildcards : List (String × Component)),
      (update_report_core totals flathub input dFrom dTo wildcards).1 =
        rankMap 1 (((sortedRemote totals flathub).map
          (mergeStep totals input dFrom dTo wildcards)).filter
          (fun (c' : Component) => !decide ('/' ∈ c'.id.toList))) ∧
      (update_report_core totals flathub input dFrom dTo wildcards).2.1 =
        rankMap 1 (((sortedRemote totals flathub).map
          (mergeStep totals input dFrom dTo wildcards)).filter
          (fun (c' : Component) => decide ('/' ∈ c'.id.toList))) ∧
      ((update_report_core totals flathub input dFrom dTo wildcards).1).map
          (fun c' => c'.download_rank) =
        List.range' 1
          ((update_report_core totals flathub input dFrom dTo wildcards).1).length ∧
      ((update_report_core totals flathub input dFrom dTo wildcards).2.1).map
          (fun c' => c'.download_rank) =
        List.range' 1
          ((update_report_core totals flathub input dFrom dTo wildcards).2.1).length ∧
      ((update_report_core totals flathub input dFrom dTo wildcards).1).Pairwise
        (fun a b => totKeyLt totals b a = false) ∧
      ((update_report_core totals flathub input dFrom dTo wildcards).2.1).Pairwise
        (fun a b => totKeyLt totals b a = false)) ∧
    ((update_report_core (fun s => if s = "C" then 10 else 5)
        [{ id := "A" }, { id := "B" }, { id := "C" }] [] none none []).1).map
      (fun c' => (c'.id, c'.download_rank)) = [("C", 1), ("A", 2), ("B", 3)] := by
  refine ⟨?_, by decide⟩
  intro totals flathub input dFrom dTo wildcards
  unfold update_report_core
  obtain ⟨h1, h2⟩ := reportLoop_apps_other totals input dFrom dTo wildcards
    (sortedRemote totals flathub) 1 1
  have hsort : (sortedRemote totals flathub).Pairwise
      (fun a b => totKeyLt totals b a = false) := by
    unfold sortedRemote
    exact pySortBy_pairwise (totKeyLt totals)
      (fun _ _ _ hab hbc => totKeyLt_trans totals hab hbc)
      (fun _ _ hab => totKeyLt_asymm totals hab) flathub
  have hmap : ((sortedRemote totals flathub).map
      (mergeStep totals input dFrom dTo wildcards)).Pairwise
      (fun a b => totKeyLt totals b a = false) := by
    refine List.Pairwise.map _ ?_ hsort
    intro a b hr
    rw [totKeyLt_congr totals
      (mergeStep_id totals input dFrom dTo wildcards b)
      (mergeStep_id totals input dFrom dTo wildcards a)]
    exact hr
  refine ⟨h1, h2, ?_, ?_, ?_, ?_⟩
  · rw [h1, rankMap_map_rank, rankMap_length]
  · rw [h2, rankMap_map_rank, rankMap_length]
  · rw [h1]
    exact rankMap_pairwise (fun _ _ _ _ hr => hr) 1 (List.Pairwise.filter _ hmap)
  · rw [h2]
    exact rankMap_pairwise (fun _ _ _ _ hr => hr) 1 (List.Pairwise.filter _ hmap)

/-! ## Lemmas about stripping and line parsing -/

theorem dropTrailing_cons_nonspace {c : Char} (h : pySpace c = false)
    (w : List Char) : dropTrailing (c :: w) = c :: dropTrailing w := by
  rw [dropTrailing]
  cases hw : dropTrailing w with
  | nil => simp [h]
  | cons r rs => rfl

theorem dropTrailing_ne_nil_append :
    ∀ (a b : List Char), dropTrailing b ≠ [] →
      dropTrailing (a ++ b) = a ++ dropTrailing b
  | [], _, _ => by simp
  | x :: xs, b, h => by
    rw [List.cons_append, dropTrailing, dropTrailing_ne_nil_append xs b h]
    cases hb : dropTrailing b with
    | nil => exact absurd hb h
    | cons r rs =>
      cases hx : xs ++ r :: rs with
      | nil => simp at hx
      | cons y ys => rw [List.cons_append, hx]

theorem dropTrailing_append_cons {c : Char} (h : pySpace c = false)
    (a w : List Char) : dropTrailing (a ++ c :: w) = a ++ c :: dropTrailing w := by
  rw [dropTrailing_ne_nil_append a (c :: w) (by rw [dropTrailing_cons_nonspace h]; simp),
    dropTrailing_cons_nonspace h]

theorem stripChars_field_line {c0 : Char} (h : pySpace c0 = false)
    (ls w : List Char) :
    stripChars ((c0 :: ls) ++ ':' :: w) = (c0 :: ls) ++ ':' :: dropTrailing w := by
  unfold stripChars
  rw [List.cons_append, List.dropWhile_cons, if_neg (by simp [h]), ← List.cons_append,
    dropTrailing_append_cons (by decide)]

theorem splitOnce_append {sep : Char} :
    ∀ {a : List Char}, sep ∉ a → ∀ (b : List Char),
      splitOnce sep (a ++ sep :: b) = some (a, b)
  | [], _, b => by simp [splitOnce]
  | c :: cs, h, b => by
    have hc : ¬ c = sep := fun e => h (e ▸ List.mem_cons_self c cs)
    have ih := splitOnce_append (a := cs) (fun m => h (List.mem_cons_of_mem _ m)) b
    rw [List.cons_append, splitOnce, if_neg hc, ih]

theorem stripChars_header (id : List Char) :
    stripChars ('[' :: id ++ [']']) = '[' :: id ++ [']'] := by
  unfold stripChars
  rw [List.cons_append, List.dropWhile_cons, if_neg (by decide), ← List.cons_append,
    dropTrailing_ne_nil_append _ [']'] (by decide)]
  rfl

theorem processLine_header (w : Bool) (st : PState) (id : List Char) :
    processLineCore w st ('[' :: id ++ [']']) =
      .ok ⟨flushCur st, some (mkComponent id w)⟩ := by
  unfold processLineCore
  rw [stripChars_header]
  rw [if_neg (by simp)]
  have hhead : ('[' :: id ++ [']']).head? = some '[' := by
    rw [List.cons_append, List.head?_cons]
  have hlast : ('[' :: id ++ [']']).getLast? = some ']' :=
    List.getLast?_concat _
  rw [if_pos ⟨hhead, hlast⟩]
  have hdrop : (('[' :: id ++ [']']).drop 1).dropLast = id := by
    rw [List.drop_one, List.cons_append, List.tail_cons, List.dropLast_concat]
  rw [hdrop]

theorem processLine_skip_field (wld : Bool)
    (d : List (String × Component)) (comp : Component)
    {c0 : Char} {ls : List Char} (w : List Char)
    (h0 : pySpace c0 = false) (h1 : c0 ≠ '[') (h2 : ':' ∉ c0 :: ls)
    (h3 : normalizeField (c0 :: ls) ∈ fieldKeys)
    (h4 : normalizeField (c0 :: ls) ≠ "include".toList)
    (h5 : normalizeField (c0 :: ls) ≠ "comments".toList) :
    processLineCore wld ⟨d, some comp⟩ ((c0 :: ls) ++ ':' :: w) =
      .ok ⟨d, some comp⟩ := by
  unfold processLineCore
  rw [stripChars_field_line h0]
  rw [if_neg (by simp)]
  have hnothdr : ¬ (((c0 :: ls) ++ ':' :: dropTrailing w).head? = some '[' ∧
      ((c0 :: ls) ++ ':' :: dropTrailing w).getLast? = some ']') := by
    rintro ⟨hh, -⟩
    rw [List.cons_append, List.head?_cons] at hh
    injection hh with hh'
    exact h1 hh'
  rw [if_neg hnothdr]
  dsimp only
  rw [splitOnce_append h2]
  dsimp only
  rw [if_neg (not_not_intro h3)]
  rw [if_neg h4, if_neg h5]

theorem processLine_comments_value (wld : Bool)
    (d : List (String × Component)) (comp : Component)
    (v : List Char) (hv1 : v.dropWhile pySpace = v) (hv2 : dropTrailing v = v)
    (hv3 : v.head? ≠ some '[') :
    processLineCore wld ⟨d, some comp⟩ ("Comments".toList ++ ':' :: ' ' :: v) =
      .ok ⟨d, some { comp with comments := String.mk v }⟩ := by
  unfold processLineCore
  rw [show ("Comments".toList ++ ':' :: ' ' :: v) =
    (('C' :: "omments".toList) ++ ':' :: (' ' :: v)) from rfl]
  rw [stripChars_field_line (by decide)]
  rw [if_neg (by simp)]
  have hnothdr : ¬ ((('C' :: "omments".toList) ++ ':' :: dropTrailing (' ' :: v)).head? =
      some '[' ∧ (('C' :: "omments".toList) ++ ':' :: dropTrailing (' ' :: v)).getLast? =
      some ']') := by
    rintro ⟨hh, -⟩
    rw [List.cons_append, List.head?_cons] at hh
    injection hh with hh'
    exact absurd hh' (by decide)
  rw [if_neg hnothdr]
  dsimp only
  rw [splitOnce_append (by decide)]
  dsimp only
  rw [if_neg (by decide)]
  rw [if_neg (by decide), if_pos (by decide)]
  have hdt : dropTrailing (' ' :: v) = if v = [] then [] else ' ' :: v := by
    rw [dropTrailing, hv2]
    cases v with
    | nil => simp [pySpace]
    | cons a as => simp
  cases hve : v with
  | nil =>
    rw [hve] at hdt
    simp only [if_pos rfl] at hdt
    rw [hdt]
    rfl
  | cons a as =>
    rw [← hve]
    rw [hve] at hdt
    rw [if_neg (by simp)] at hdt
    rw [← hve] at hdt
    rw [hdt]
    have hstrip : stripChars (' ' :: v) = v := by
      unfold stripChars
      rw [List.dropWhile_cons, if_pos (by decide), hv1, hv2]
    rw [hstrip, if_neg hv3]

theorem processLine_comments_bare (wld : Bool)
    (d : List (String × Component)) (comp : Component) :
    processLineCore wld ⟨d, some comp⟩ ("Comments".toList ++ [':']) =
      .ok ⟨d, some { comp with comments := "" }⟩ := by
  unfold processLineCore
  rw [show ("Comments".toList ++ [':']) =
    (('C' :: "omments".toList) ++ ':' :: ([] : List Char)) from rfl]
  rw [stripChars_field_line (by decide)]
  rw [if_neg (by simp)]
  have hnothdr : ¬ ((('C' :: "omments".toList) ++ ':' :: dropTrailing []).head? =
      some '[' ∧ (('C' :: "omments".toList) ++ ':' :: dropTrailing []).getLast? =
      some ']') := by
    rintro ⟨hh, -⟩
    rw [List.cons_append, List.head?_cons] at hh
    injection hh with hh'
    exact absurd hh' (by decide)
  rw [if_neg hnothdr]
  dsimp only
  rw [splitOnce_append (by decide)]
  dsimp only
  rw [if_neg (by decide)]
  rw [if_neg (by decide), if_pos (by decide)]
  rfl

theorem processLine_include (wld : Bool) (d : List (String × Component))
    (comp : Component) (v : String) (hv : v = "" ∨ v = "yes" ∨ v = "no") :
    processLineCore wld ⟨d, some comp⟩ (fieldLine "Include" v) =
      .ok ⟨d, some { comp with «include» := v }⟩ := by
  rcases hv with rfl | rfl | rfl <;> rfl

theorem processLine_blank (wld : Bool) (st : PState) :
    processLineCore wld st [] = .ok st := rfl

theorem processLines_cons_ok {path : String} {wld : Bool} {st : PState} {n : Nat}
    {l : List Char} {ls : List (List Char)} {st1 : PState}
    (h : processLineCore wld st l = .ok st1) :
    processLines path wld st n (l :: ls) = processLines path wld st1 (n + 1) ls := by
  rw [processLines]
  have h' : processLine path wld st (n + 1) l = .ok st1 := by
    unfold processLine
    rw [h]
  rw [h']

theorem processLines_skip_opt (path : String) (d : List (String × Component))
    (comp : Component) (label : String) (v : Option String)
    (tail : List (List Char)) (n : Nat)
    (h : ∀ w, processLineCore false ⟨d, some comp⟩ (label.toList ++ ':' :: w) =
      .ok ⟨d, some comp⟩) :
    ∃ m, processLines path false ⟨d, some comp⟩ n (dumpOptField label v ++ tail) =
      processLines path false ⟨d, some comp⟩ m tail := by
  cases v with
  | none => exact ⟨n, rfl⟩
  | some s =>
    refine ⟨n + 1, ?_⟩
    rw [show dumpOptField label (some s) = [fieldLine label s] from rfl,
      List.singleton_append]
    by_cases hs : s = ""
    · rw [show fieldLine label s = label.toList ++ ':' :: [] from by
        rw [fieldLine, if_pos hs]]
      exact processLines_cons_ok (h [])
    · rw [show fieldLine label s = label.toList ++ ':' :: (' ' :: s.toList) from by
        rw [fieldLine, if_neg hs]]
      exact processLines_cons_ok (h (' ' :: s.toList))

theorem processLines_block (path : String) (c : Component) (hv : ValidComponent c)
    (rest : List (List Char)) (d : List (String × Component))
    (cur : Option Component) (n : Nat) :
    ∃ m, processLines path false ⟨d, cur⟩ n (c.dump ++ rest) =
      processLines path false ⟨flushCur ⟨d, cur⟩, some (parsedOf c)⟩ m rest := by
  obtain ⟨hw, -, -, hcm, hinc, -, -, -, -⟩ := hv
  have hdump : c.dump = ('[' :: c.id.toList ++ [']']) ::
      (dumpOptField "Name" c.name ++ (dumpOptField "Homepage" c.homepage ++
        (dumpOptField "License" c.license ++ (dumpOptField "Runtime" c.runtime ++
        (fieldLine "Downloads (new last month)" (downloadsStr c) ::
         fieldLine "Fedora Flatpak" (if c.fedora_flatpak then "True" else "False") ::
         fieldLine "Comments" c.comments ::
         [fieldLine "Include" c.«include»]))))) := by
    unfold Component.dump
    rw [hw]
    simp [List.append_assoc]
  rw [hdump, List.cons_append]
  rw [processLines_cons_ok (processLine_header false ⟨d, cur⟩ c.id.toList)]
  simp only [List.append_assoc, List.cons_append, List.nil_append]
  have hskip : ∀ (label : String) (w : List Char),
      label ∈ (["Name", "Homepage", "License", "Runtime",
        "Downloads (new last month)", "Fedora Flatpak"] : List String) →
      processLineCore false ⟨flushCur ⟨d, cur⟩, some (mkComponent c.id.toList false)⟩
        (label.toList ++ ':' :: w) =
        .ok ⟨flushCur ⟨d, cur⟩, some (mkComponent c.id.toList false)⟩ := by
    intro label w hlab
    fin_cases hlab
    · exact processLine_skip_field false _ _ w (by decide) (by decide) (by decide)
        (by decide) (by decide) (by decide)
    · exact processLine_skip_field false _ _ w (by decide) (by decide) (by decide)
        (by decide) (by decide) (by decide)
    · exact processLine_skip_field false _ _ w (by decide) (by decide) (by decide)
        (by decide) (by decide) (by decide)
    · exact processLine_skip_field false _ _ w (by decide) (by decide) (by decide)
        (by decide) (by decide) (by decide)
    · exact processLine_skip_field false _ _ w (by decide) (by decide) (by decide)
        (by decide) (by decide) (by decide)
    · exact processLine_skip_field false _ _ w (by decide) (by decide) (by decide)
        (by decide) (by decide) (by decide)
  obtain ⟨m1, h1⟩ := processLines_skip_opt path _ _ "Name" c.name _ (n + 1)
    (fun w => hskip "Name" w (by simp))
  rw [h1]
  obtain ⟨m2, h2⟩ := processLines_skip_opt path _ _ "Homepage" c.homepage _ m1
    (fun w => hskip "Homepage" w (by simp))
  rw [h2]
  obtain ⟨m3, h3⟩ := processLines_skip_opt path _ _ "License" c.license _ m2
    (fun w => hskip "License" w (by simp))
  rw [h3]
  obtain ⟨m4, h4⟩ := processLines_skip_opt path _ _ "Runtime" c.runtime _ m3
    (fun w => hskip "Runtime" w (by simp))
  rw [h4]
  have hds : ¬ downloadsStr c = "" := by
    intro he
    have h2 : (downloadsStr c).data = [] := by rw [he]
    rw [show (downloadsStr c).data =
      (toString c.download_count ++ " (rank: " ++ toString c.download_rank).data ++
        [')'] from rfl] at h2
    simp at h2
  rw [show fieldLine "Downloads (new last month)" (downloadsStr c) =
      "Downloads (new last month)".toList ++ ':' :: (' ' :: (downloadsStr c).toList) from by
    rw [fieldLine, if_neg hds]]
  rw [processLines_cons_ok (hskip "Downloads (new last month)"
    (' ' :: (downloadsStr c).toList) (by simp))]
  rw [show fieldLine "Fedora Flatpak" (if c.fedora_flatpak then "True" else "False") =
      "Fedora Flatpak".toList ++ ':' ::
        (' ' :: (if c.fedora_flatpak then "True" else "False").toList) from by
    rw [fieldLine, if_neg (by cases c.fedora_flatpak <;> decide)]]
  rw [processLines_cons_ok (hskip "Fedora Flatpak"
    (' ' :: (if c.fedora_flatpak then "True" else "False").toList) (by simp))]
  by_cases hce : c.comments = ""
  · rw [show fieldLine "Comments" c.comments = "Comments".toList ++ [':'] from by
      rw [fieldLine, if_pos hce]]
    rw [processLines_cons_ok (processLine_comments_bare false _ _)]
    rw [processLines_cons_ok (processLine_include false _ _ c.«include» hinc)]
    rw [show ({ mkComponent c.id.toList false with comments := "" } : Component) =
        { mkComponent c.id.toList false with comments := c.comments } from by rw [hce]]
    exact ⟨_, rfl⟩
  · rw [show fieldLine "Comments" c.comments =
        "Comments".toList ++ ':' :: ' ' :: c.comments.toList from by
      rw [fieldLine, if_neg hce]]
    rw [processLines_cons_ok (processLine_comments_value false _ _ c.comments.toList
      hcm.2.2.1 hcm.2.2.2.1 hcm.2.2.2.2)]
    rw [processLines_cons_ok (processLine_include false _ _ c.«include» hinc)]
    exact ⟨_, rfl⟩

theorem processLines_tailBlocks (path : String) :
    ∀ (cs : List Component), (∀ c' ∈ cs, ValidComponent c') →
      ∀ (d : List (String × Component)) (comp : Component) (n : Nat),
        processLines path false ⟨d, some comp⟩ n
          (cs.flatMap (fun c' => ([] : List Char) :: c'.dump)) =
          .ok (parseEnd d comp cs)
  | [], _, _, _, _ => rfl
  | c :: cs, hv, d, comp, n => by
    rw [show (c :: cs).flatMap (fun c' => ([] : List Char) :: c'.dump) =
      ([] : List Char) :: (c.dump ++ cs.flatMap (fun c' => ([] : List Char) :: c'.dump))
      from by simp]
    rw [processLines_cons_ok (processLine_blank false ⟨d, some comp⟩)]
    obtain ⟨m, hm⟩ := processLines_block path c (hv c (List.mem_cons_self _ _)) _ d
      (some comp) (n + 1)
    rw [hm]
    rw [show (flushCur ⟨d, some comp⟩) = dictSet d comp.id comp from rfl]
    rw [parseEnd]
    exact processLines_tailBlocks path cs
      (fun c' h' => hv c' (List.mem_cons_of_mem _ h')) _ _ m

theorem flushCur_parseEnd : ∀ (cs : List Component) (d : List (String × Component))
    (comp : Component),
    flushCur (parseEnd d comp cs) =
      (comp :: cs.map parsedOf).foldl (fun d' c' => dictSet d' c'.id c') d
  | [], _, _ => rfl
  | c :: cs, d, comp => by
    rw [parseEnd, flushCur_parseEnd cs]
    rfl

theorem parse_dumpComponents (path : String) (c0 : Component) (cs : List Component)
    (h0 : ValidComponent c0) (hcs : ∀ c ∈ cs, ValidComponent c) :
    add_components_from_path [] path (dumpComponents (c0 :: cs)) false =
      .ok (((c0 :: cs).map parsedOf).foldl (fun d c => dictSet d c.id c) []) := by
  unfold add_components_from_path
  rw [show dumpComponents (c0 :: cs) =
    c0.dump ++ cs.flatMap (fun c' => ([] : List Char) :: c'.dump) from rfl]
  obtain ⟨m, hm⟩ := processLines_block path c0 h0
    (cs.flatMap (fun c' => ([] : List Char) :: c'.dump)) [] none 0
  rw [hm]
  rw [show (flushCur ⟨[], none⟩) = ([] : List (String × Component)) from rfl]
  rw [processLines_tailBlocks path cs hcs [] (parsedOf c0) m]
  dsimp only
  rw [flushCur_parseEnd cs [] (parsedOf c0)]
  rfl

/-! ## Dictionary lookup lemmas -/

theorem dictGet_dictSet_self : ∀ (d : List (String × Component)) (k : String)
    (v : Component), dictGet (dictSet d k v) k = some v
  | [], k, v => by simp [dictSet, dictGet]
  | (k', v') :: rest, k, v => by
    by_cases h : k' = k
    · rw [dictSet, if_pos h, dictGet, if_pos rfl]
    · rw [dictSet, if_neg h, dictGet, if_neg h, dictGet_dictSet_self rest]

theorem dictGet_dictSet_ne : ∀ (d : List (String × Component)) (k k' : String)
    (v : Component), k' ≠ k → dictGet (dictSet d k v) k' = dictGet d k'
  | [], k, k', v, h => by
    rw [dictSet]
    show (if k = k' then some v else dictGet [] k') = dictGet [] k'
    rw [if_neg (fun e => h e.symm)]
  | (a, b) :: rest, k, k', v, h => by
    by_cases ha : a = k
    · rw [dictSet, if_pos ha, dictGet, if_neg (fun e => h e.symm), dictGet, ha,
        if_neg (fun e => h e.symm)]
    · rw [dictSet, if_neg ha, dictGet, dictGet,
        dictGet_dictSet_ne rest k k' v h]

theorem keys_dictSet : ∀ (d : List (String × Component)) (k : String) (v : Component),
    (dictSet d k v).map Prod.fst =
      (if k ∈ d.map Prod.fst then d.map Prod.fst else d.map Prod.fst ++ [k])
  | [], k, v => by simp [dictSet]
  | (a, b) :: rest, k, v => by
    by_cases h : a = k
    · rw [dictSet, if_pos h]
      simp [h]
    · rw [dictSet, if_neg h]
      simp only [List.map_cons]
      rw [keys_dictSet rest]
      by_cases hm : k ∈ rest.map Prod.fst
      · rw [if_pos hm, if_pos (by simp [hm])]
      · have hni : k ∉ a :: rest.map Prod.fst := by
          simp only [List.mem_cons]
          rintro (he | hmm2)
          · exact h he.symm
          · exact hm hmm2
        rw [if_neg hm, if_neg hni]
        simp

theorem nodupKeys_dictSet (d : List (String × Component)) (k : String) (v : Component)
    (h : (d.map Prod.fst).Nodup) : ((dictSet d k v).map Prod.fst).Nodup := by
  rw [keys_dictSet]
  by_cases hm : k ∈ d.map Prod.fst
  · rw [if_pos hm]
    exact h
  · rw [if_neg hm]
    simp [List.nodup_append, h, hm]

theorem dictGet_foldl_fresh : ∀ (l : List Component) (d : List (String × Component))
    (k : String), (∀ c ∈ l, c.id ≠ k) →
    dictGet (l.foldl (fun d' c' => dictSet d' c'.id c') d) k = dictGet d k
  | [], _, _, _ => rfl
  | c :: cs, d, k, h => by
    rw [List.foldl_cons,
      dictGet_foldl_fresh cs _ k (fun c' m => h c' (List.mem_cons_of_mem _ m)),
      dictGet_dictSet_ne d c.id k c (fun e => h c (List.mem_cons_self _ _) e.symm)]

theorem dictGet_foldl_mem : ∀ (l : List Component) (d : List (String × Component))
    (c : Component), c ∈ l → (l.map Component.id).Nodup →
    dictGet (l.foldl (fun d' c' => dictSet d' c'.id c') d) c.id = some c
  | [], _, _, h, _ => absurd h (by simp)
  | x :: xs, d, c, h, hnd => by
    rw [List.foldl_cons]
    rcases List.mem_cons.mp h with he | hm
    · subst he
      have hfresh : ∀ c' ∈ xs, c'.id ≠ c.id := by
        intro c' m e
        exact (List.nodup_cons.mp hnd).1 (e ▸ List.mem_map_of_mem Component.id m)
      rw [dictGet_foldl_fresh xs _ _ hfresh]
      exact dictGet_dictSet_self d c.id c
    · exact dictGet_foldl_mem xs _ c hm (List.nodup_cons.mp hnd).2

theorem flushCur_nodup (st : PState) (hnd : (st.dict.map Prod.fst).Nodup) :
    ((flushCur st).map Prod.fst).Nodup := by
  obtain ⟨d, cur⟩ := st
  cases cur with
  | none => exact hnd
  | some c => exact nodupKeys_dictSet d c.id c hnd

theorem processLineCore_nodup (wld : Bool) (st : PState) (raw : List Char)
    (st' : PState) (h : processLineCore wld st raw = .ok st')
    (hnd : (st.dict.map Prod.fst).Nodup) : (st'.dict.map Prod.fst).Nodup := by
  unfold processLineCore at h
  dsimp only at h
  repeat' split at h
  all_goals try cases h
  all_goals first
    | exact hnd
    | exact flushCur_nodup st hnd

theorem processLine_ok_core {path : String} {wld : Bool} {st : PState} {n : Nat}
    {raw : List Char} {st' : PState}
    (h : processLine path wld st n raw = .ok st') :
    processLineCore wld st raw = .ok st' := by
  unfold processLine at h
  cases hc : processLineCore wld st raw with
  | ok s =>
    rw [hc] at h
    cases h
    rfl
  | error e =>
    rw [hc] at h
    cases e <;> cases h

theorem processLines_nodup (path : String) (wld : Bool) :
    ∀ (lines : List (List Char)) (st : PState) (n : Nat) (st' : PState),
      processLines path wld st n lines = .ok st' →
      (st.dict.map Prod.fst).Nodup → (st'.dict.map Prod.fst).Nodup
  | [], st, _, st', h, hnd => by
    cases h
    exact hnd
  | l :: ls, st, n, st', h, hnd => by
    rw [processLines] at h
    cases hq : processLine path wld st (n + 1) l with
    | error e =>
      rw [hq] at h
      cases h
    | ok st1 =>
      rw [hq] at h
      exact processLines_nodup path wld ls st1 (n + 1) st' h
        (processLineCore_nodup wld st l st1 (processLine_ok_core hq) hnd)

theorem add_components_nodup (path : String) (wld : Bool)
    (lines : List (List Char)) (d d' : List (String × Component))
    (hnd : (d.map Prod.fst).Nodup)
    (h : add_components_from_path d path lines wld = .ok d') :
    (d'.map Prod.fst).Nodup := by
  unfold add_components_from_path at h
  cases hq : processLines path wld ⟨d, none⟩ 0 lines with
  | error e =>
    rw [hq] at h
    cases h
  | ok st =>
    rw [hq] at h
    cases h
    exact flushCur_nodup st (processLines_nodup path wld lines ⟨d, none⟩ 0 st hq hnd)

theorem processLine_comments_any (d : List (String × Component)) (comp : Component)
    (v : String) (hvv : ValidComments v) :
    processLineCore false ⟨d, some comp⟩ (fieldLine "Comments" v) =
      .ok ⟨d, some { comp with comments := v }⟩ := by
  by_cases hv0 : v = ""
  · subst hv0
    exact processLine_comments_bare false d comp
  · rw [show fieldLine "Comments" v =
        "Comments".toList ++ ':' :: ' ' :: v.toList from by rw [fieldLine, if_neg hv0]]
    have h := processLine_comments_value false d comp v.toList
      hvv.2.2.1 hvv.2.2.2.1 hvv.2.2.2.2
    rw [mk_toList] at h
    exact h

/-! ## C3: round trip -/

/-- C3: parsing the writer's output recovers every component's
`comments` and `include` values, for any list of components whose dump
is valid curated text (one line per value, stripped values not starting
with `[`, legal `include` values, distinct ids). -/
theorem C3_round_trip (path : String) (cs : List Component)
    (hv : ∀ c ∈ cs, ValidComponent c) (hnd : (cs.map Component.id).Nodup) :
    ∃ d, add_components_from_path [] path (dumpComponents cs) false = .ok d ∧
      ∀ c ∈ cs, ∃ c', dictGet d c.id = some c' ∧
        c'.comments = c.comments ∧ c'.«include» = c.«include» := by
  cases cs with
  | nil => exact ⟨[], rfl, by simp⟩
  | cons c0 cs =>
    refine ⟨_, parse_dumpComponents path c0 cs (hv c0 (List.mem_cons_self _ _))
      (fun c m => hv c (List.mem_cons_of_mem _ m)), ?_⟩
    intro c hc
    refine ⟨parsedOf c, ?_, rfl, rfl⟩
    have hmem : parsedOf c ∈ (c0 :: cs).map parsedOf := List.mem_map_of_mem _ hc
    have hnd' : (((c0 :: cs).map parsedOf).map Component.id).Nodup := by
      rw [List.map_map]
      exact hnd
    exact dictGet_foldl_mem ((c0 :: cs).map parsedOf) [] (parsedOf c) hmem hnd'

/-- Witness: a concrete component round-trips through dump and parse. -/
theorem C3_round_trip_witness :
    (∀ c ∈ [({ id := "org.foo.Bar", comments := "hello world", «include» := "yes" } : Component)], ValidComponent c) ∧
    ([({ id := "org.foo.Bar", comments := "hello world", «include» := "yes" } : Component)].map Component.id).Nodup ∧
    ∃ d, add_components_from_path [] "apps.txt"
        (dumpComponents [({ id := "org.foo.Bar", comments := "hello world", «include» := "yes" } : Component)]) false = .ok d ∧
      ∀ c ∈ [({ id := "org.foo.Bar", comments := "hello world", «include» := "yes" } : Component)],
        ∃ c', dictGet d c.id = some c' ∧
          c'.comments = c.comments ∧ c'.«include» = c.«include» :=
  ⟨by decide, by decide,
   C3_round_trip "apps.txt"
     [({ id := "org.foo.Bar", comments := "hello world", «include» := "yes" } : Component)]
     (by decide) (by decide)⟩

/-! ## C2: duplicate section ids -/

/-- Counterexample to C2 as stated: with two sections both headed
`[a]`, the loaded mapping holds the comments of the second occurrence
(`"y"`), not of the first (`"x"`): a later dict assignment to the same
id overwrites the registered value. -/
theorem C2_counterexample :
    add_components_from_path [] "apps.txt"
      ["[a]".toList, "Comments: x".toList, "[a]".toList, "Comments: y".toList]
      false = .ok [("a", { id := "a", comments := "y" })] ∧
    ({ id := "a", comments := "y" } : Component).comments ≠ "x" := by
  refine ⟨by rfl, by decide⟩

/-- C2 amended: for a curated file in which two bracketed sections
carry the same id, the loaded mapping contains the field values of the
last occurrence (each component is registered when the next section
starts or at end of file, and a re-registration overwrites the value);
ids remain unique keys of the loaded mapping. -/
theorem C2_last_occurrence_wins :
    (∀ (path : String) (idc : List Char) (v1 v2 : String),
      ValidComments v1 → ValidComments v2 →
      add_components_from_path [] path
        ['[' :: idc ++ [']'], fieldLine "Comments" v1,
         '[' :: idc ++ [']'], fieldLine "Comments" v2] false =
        .ok [(String.mk idc, { mkComponent idc false with comments := v2 })]) ∧
    (∀ (path : String) (wld : Bool) (lines : List (List Char))
      (d d' : List (String × Component)),
      (d.map Prod.fst).Nodup →
      add_components_from_path d path lines wld = .ok d' →
      (d'.map Prod.fst).Nodup) := by
  constructor
  · intro path idc v1 v2 h1 h2
    unfold add_components_from_path
    rw [processLines_cons_ok (processLine_header false ⟨[], none⟩ idc)]
    rw [processLines_cons_ok (processLine_comments_any _ _ v1 h1)]
    rw [processLines_cons_ok (processLine_header false _ idc)]
    rw [processLines_cons_ok (processLine_comments_any _ _ v2 h2)]
    dsimp only [processLines, flushCur, mkComponent, dictSet]
    rw [if_pos rfl]
  · intro path wld lines d d' hnd h
    exact add_components_nodup path wld lines d d' hnd h

/-- Witness: the amended C2 at a concrete duplicate-id file. -/
theorem C2_last_occurrence_wins_witness :
    ValidComments "x" ∧ ValidComments "y" ∧
    add_components_from_path [] "apps.txt"
      ['[' :: "a".toList ++ [']'], fieldLine "Comments" "x",
       '[' :: "a".toList ++ [']'], fieldLine "Comments" "y"] false =
      .ok [(String.mk "a".toList,
        { mkComponent "a".toList false with comments := "y" })] :=
  ⟨by decide, by decide,
   C2_last_occurrence_wins.1 "apps.txt" "a".toList "x" "y" (by decide) (by decide)⟩

/-! ## C8: fatal parse errors and atomicity -/

/-- C8: a field line with an unrecognized label, an illegal `include`
value, or content before the first bracketed header is a fatal error
identifying file and line; a fatal run leaves all four previous output
files untouched (no rename happens), and such errors abort the whole
`update_report` run. -/
theorem C8_fatal_parse_atomicity :
    (∀ (prev : ReportOutputs) (totals : String → Int) (flathub : List Component)
      (input : CuratedDir) (dF dT : Option CuratedDir) (e : RunErr),
      update_report totals flathub input dF dT = .error e →
      finalFiles prev (update_report totals flathub input dF dT) = prev) ∧
    add_components_from_path [] "apps.txt"
      ["[a]".toList, "Frobnicate: x".toList] false =
      .error (.unknownKey "apps.txt" 2 "Frobnicate") ∧
    add_components_from_path [] "apps.txt"
      ["[a]".toList, "Include: maybe".toList] false =
      .error (.badInclude "apps.txt" 2 "maybe") ∧
    add_components_from_path [] "apps.txt" ["Comments: x".toList] false =
      .error (.textBeforeComponent "apps.txt" 1) ∧
    update_report (fun _ => 0) []
      ⟨["[a]".toList, "Frobnicate: x".toList], [], []⟩ none none =
      .error (.parse (.unknownKey "apps.txt" 2 "Frobnicate")) := by
  refine ⟨?_, by rfl, by rfl, by rfl, by rfl⟩
  intro prev totals flathub input dF dT e h
  rw [h]
  rfl

/-- Witness: a run on a curated file with an unknown label fails with
the located error and leaves the previous outputs in place. -/
theorem C8_fatal_parse_atomicity_witness :
    update_report (fun _ => 0) []
      ⟨["[a]".toList, "Frobnicate: x".toList], [], []⟩ none none =
      .error (.parse (.unknownKey "apps.txt" 2 "Frobnicate")) ∧
    finalFiles ⟨[['a']], [['b']], [['c']], [['d']]⟩
      (update_report (fun _ => 0) []
        ⟨["[a]".toList, "Frobnicate: x".toList], [], []⟩ none none) =
      ⟨[['a']], [['b']], [['c']], [['d']]⟩ :=
  ⟨by rfl,
   C8_fatal_parse_atomicity.1 ⟨[['a']], [['b']], [['c']], [['d']]⟩ (fun _ => 0) []
     ⟨["[a]".toList, "Frobnicate: x".toList], [], []⟩ none none
     (.parse (.unknownKey "apps.txt" 2 "Frobnicate")) (by rfl)⟩

/-! ## C9: filter derivation -/

theorem reportLoop_filters_perm (totals : String → Int)
    (input : List (String × Component))
    (dFrom dTo : Option (List (String × Component)))
    (wildcards : List (String × Component)) :
    ∀ (cs : List Component) (appR othR : Nat),
      List.Perm (reportLoop totals input dFrom dTo wildcards appR othR cs).2.2
        (((reportLoop totals input dFrom dTo wildcards appR othR cs).1 ++
          (reportLoop totals input dFrom dTo wildcards appR othR cs).2.1).filter
          (fun cc => decide (cc.«include» = "yes")))
  | [], _, _ => by simp [reportLoop]
  | c :: cs, appR, othR => by
    by_cases h : '/' ∈ (mergeStep totals input dFrom dTo wildcards c).id.toList
    · have ih := reportLoop_filters_perm totals input dFrom dTo wildcards cs appR (othR + 1)
      rw [reportLoop, if_pos h]
      dsimp only
      rw [List.filter_append] at ih ⊢
      rw [List.filter_cons]
      by_cases hinc : (mergeStep totals input dFrom dTo wildcards c).«include» = "yes"
      · rw [if_pos hinc, if_pos (by simpa using hinc)]
        exact (ih.cons _).trans List.perm_middle.symm
      · rw [if_neg hinc, if_neg (by simpa using hinc)]
        exact ih
    · have ih := reportLoop_filters_perm totals input dFrom dTo wildcards cs (appR + 1) othR
      rw [reportLoop, if_neg h]
      dsimp only
      rw [List.filter_append] at ih ⊢
      rw [List.filter_cons]
      by_cases hinc : (mergeStep totals input dFrom dTo wildcards c).«include» = "yes"
      · rw [if_pos hinc, if_pos (by simpa using hinc)]
        rw [List.cons_append]
        exact ih.cons _
      · rw [if_neg hinc, if_neg (by simpa using hinc)]
        exact ih

/-- C9: on any successful run, the filter file starts with the fixed
header and `deny *`, followed by exactly one `allow <pattern>` line per
component or wildcard with `include = "yes"` (a permutation of the
included sorted wildcards and the included merged components), sorted
ascending by `sort_key`; a bare id renders as itself and
`<prefix>/<suffix>` as `runtime/<prefix>/*/<suffix>`. -/
theorem C9_filter_derivation :
    (∀ (totals : String → Int) (flathub : List Component) (input : CuratedDir)
      (dF dT : Option CuratedDir) (w inputC : List (String × Component))
      (dFC dTC : Option (List (String × Component))) (o : ReportOutputs),
      updated_wildcards input dF dT = .ok w →
      load_components input = .ok inputC →
      loadOptDir dF = .ok dFC →
      loadOptDir dT = .ok dTC →
      update_report totals flathub input dF dT = .ok o →
      o.filterLines.take 5 = filterHeader ∧
      ∃ g : List Component,
        allowLines g = some (o.filterLines.drop 5) ∧
        g.Pairwise (fun a b => skLt b a = false) ∧
        List.Perm g
          ((pySortBy skLt (w.map Prod.snd)).filter
              (fun cc => decide (cc.«include» = "yes")) ++
            ((update_report_core totals flathub inputC dFC dTC w).1 ++
              (update_report_core totals flathub inputC dFC dTC w).2.1).filter
              (fun cc => decide (cc.«include» = "yes")))) ∧
    Component.filter_ref { id := "org.foo.Bar" } = some "org.foo.Bar" ∧
    Component.filter_ref { id := "org.foo.Platform/21" } =
      some "runtime/org.foo.Platform/*/21" ∧
    filter_lines [{ id := "org.foo.Platform/21", «include» := "yes" },
      { id := "org.foo.Bar", «include» := "yes" }] =
      some ["# Autogenerated, do not edit".toList,
        "# See https://pagure.io/fedora-flathub-filter".toList, "#".toList,
        "# Deny by default".toList, "deny *".toList,
        "allow org.foo.Bar".toList,
        "allow runtime/org.foo.Platform/*/21".toList] := by
  refine ⟨?_, by rfl, by rfl, by rfl⟩
  intro totals flathub input dF dT w inputC dFC dTC o hw hic hf ht ho
  unfold update_report at ho
  rw [hw] at ho
  dsimp only at ho
  rw [hic] at ho
  dsimp only at ho
  rw [hf] at ho
  dsimp only at ho
  rw [ht] at ho
  dsimp only at ho
  cases hfl : filter_lines ((write_wildcard_components w).1 ++
      (update_report_core totals flathub inputC dFC dTC w).2.2) with
  | none =>
    rw [hfl] at ho
    cases ho
  | some fl =>
    rw [hfl] at ho
    dsimp only at ho
    cases ho
    unfold filter_lines at hfl
    cases hal : allowLines (pySortBy skLt ((write_wildcard_components w).1 ++
        (update_report_core totals flathub inputC dFC dTC w).2.2)) with
    | none =>
      rw [hal] at hfl
      cases hfl
    | some ls =>
      rw [hal] at hfl
      cases hfl
      constructor
      · show (filterHeader ++ ls).take 5 = filterHeader
        rw [show (5 : Nat) = filterHeader.length from rfl, List.take_left]
      · refine ⟨pySortBy skLt ((write_wildcard_components w).1 ++
          (update_report_core totals flathub inputC dFC dTC w).2.2), ?_, ?_, ?_⟩
        · show allowLines _ = some ((filterHeader ++ ls).drop 5)
          rw [show (5 : Nat) = filterHeader.length from rfl, List.drop_left]
          exact hal
        · exact pySortBy_pairwise skLt
            (fun _ _ _ hab hbc => skLt_trans hab hbc)
            (fun _ _ hab => skLt_asymm hab) _
        · refine (pySortBy_perm skLt _).trans ?_
          refine List.Perm.append (List.Perm.refl _) ?_
          unfold update_report_core
          exact reportLoop_filters_perm totals inputC dFC dTC w
            (sortedRemote totals flathub) 1 1

/-- Witness: the filter-file shape on a concrete successful run. -/
theorem C9_filter_derivation_witness :
    updated_wildcards ⟨[], [], []⟩ none none = .ok [] ∧
    load_components ⟨[], [], []⟩ = .ok [] ∧
    loadOptDir none = .ok none ∧
    update_report (fun _ => 0) [] ⟨[], [], []⟩ none none =
      .ok ⟨[], [], [], filterHeader⟩ ∧
    ((⟨[], [], [], filterHeader⟩ : ReportOutputs).filterLines.take 5 = filterHeader ∧
      ∃ g : List Component,
        allowLines g =
          some ((⟨[], [], [], filterHeader⟩ : ReportOutputs).filterLines.drop 5) ∧
        g.Pairwise (fun a b => skLt b a = false) ∧
        List.Perm g
          ((pySortBy skLt (([] : List (String × Component)).map Prod.snd)).filter
              (fun cc => decide (cc.«include» = "yes")) ++
            ((update_report_core (fun _ => 0) [] [] none none []).1 ++
              (update_report_core (fun _ => 0) [] [] none none []).2.1).filter
              (fun cc => decide (cc.«include» = "yes")))) :=
  ⟨rfl, rfl, rfl, rfl,
   C9_filter_derivation.1 (fun _ => 0) [] ⟨[], [], []⟩ none none [] [] none none
     ⟨[], [], [], filterHeader⟩ rfl rfl rfl rfl rfl⟩

/-! ## C10: frame property of `merge` -/

/-- C10: every merge call (direct overlay, delta replay or wildcard
overlay is the same `Component.merge`) changes at most `comments` and
`include`; all other fields, and the derived `sort_key`, are
untouched. -/
theorem C10_merge_frame (self : Component) (base : Option Component) (other : Component) :
    ((self.merge base other).1).id = self.id ∧
    ((self.merge base other).1).sort_key = self.sort_key ∧
    ((self.merge base other).1).name = self.name ∧
    ((self.merge base other).1).homepage = self.homepage ∧
    ((self.merge base other).1).license = self.license ∧
    ((self.merge base other).1).runtime = self.runtime ∧
    ((self.merge base other).1).download_count = self.download_count ∧
    ((self.merge base other).1).download_rank = self.download_rank ∧
    ((self.merge base other).1).fedora_flatpak = self.fedora_flatpak := by
  unfold Component.merge mergeField
  dsimp only
  repeat' split
  all_goals simp [Component.sort_key]

/-! ## C1: delta replay -/

/-- Counterexample to C1 as stated: with current curated
`include = "no"`, from-snapshot `include = "yes"` and to-snapshot
`include = "yes"`, the from-snapshot value differs from the current
value, so the claimed condition demands the `to` value `"yes"`; the
code compares the `to` value against the `from` value and leaves
`"no"` in place. -/
theorem C1_counterexample :
    ({ id := "org.x", «include» := "yes" } : Component).«include» ≠
      ({ id := "org.x", «include» := "no" } : Component).«include» ∧
    ((Component.merge { id := "org.x", «include» := "no" }
        (some { id := "org.x", «include» := "yes" })
        { id := "org.x", «include» := "yes" }).1).«include» = "no" ∧
    ({ id := "org.x", «include» := "yes" } : Component).«include» = "yes" := by
  decide

/-- C1 amended: for a plain (non-wildcard) `to` component, the `to`
value is overlaid exactly when no `from` counterpart exists or the
field differs between the `from` and `to` snapshots (with a `from`
component present, each curated field of the merge result is the `to`
value when `to` and `from` disagree on it, else the current value). -/
theorem C1_delta_replay (cur fromC toC : Component) (hw : toC.isWildcard = false) :
    ((cur.merge (some fromC) toC).1).comments =
      (if toC.comments = fromC.comments then cur.comments else toC.comments) ∧
    ((cur.merge (some fromC) toC).1).«include» =
      (if toC.«include» = fromC.«include» then cur.«include» else toC.«include») := by
  unfold Component.merge mergeField
  by_cases h1 : toC.comments = fromC.comments <;>
    by_cases h2 : toC.«include» = fromC.«include» <;>
      simp [h1, h2, hw]

/-- Witness: the spec's own delta-replay example.  From-snapshot
`include = ""`, to-snapshot `include = "yes"`, current curated
`include = ""`: after the merge, `include = "yes"`. -/
theorem C1_delta_replay_witness :
    ({ id := "org.x", «include» := "yes" } : Component).isWildcard = false ∧
    ((Component.merge { id := "org.x", «include» := "" }
        (some { id := "org.x", «include» := "" })
        { id := "org.x", «include» := "yes" }).1).«include» = "yes" := by
  refine ⟨rfl, ?_⟩
  have h := (C1_delta_replay { id := "org.x", «include» := "" }
    { id := "org.x", «include» := "" } { id := "org.x", «include» := "yes" } rfl).2
  simpa using h

/-! ## C5: wildcard overlay -/

/-- C5: for a matching wildcard (merge with a wildcard as `other`), a
field that already holds a non-empty value is kept and a warning is
emitted; an empty field takes the wildcard's non-empty value prefixed
with `[<wildcard-id>] `. -/
theorem C5_wildcard_overlay (self other : Component) (hw : other.isWildcard = true) :
    (self.comments ≠ "" →
      ((self.merge none other).1).comments = self.comments ∧
      (self.id ++ ": matched by wildcard " ++ other.id ++ ", but " ++ "comments" ++
          " explicitly specified") ∈ (self.merge none other).2) ∧
    (self.comments = "" → other.comments ≠ "" →
      ((self.merge none other).1).comments = "[" ++ other.id ++ "] " ++ other.comments) ∧
    (self.«include» ≠ "" →
      ((self.merge none other).1).«include» = self.«include» ∧
      (self.id ++ ": matched by wildcard " ++ other.id ++ ", but " ++ "include" ++
          " explicitly specified") ∈ (self.merge none other).2) ∧
    (self.«include» = "" → other.«include» ≠ "" →
      ((self.merge none other).1).«include» = "[" ++ other.id ++ "] " ++ other.«include») := by
  unfold Component.merge mergeField
  by_cases h1 : self.comments = "" <;> by_cases h2 : other.comments = "" <;>
    by_cases h3 : self.«include» = "" <;> by_cases h4 : other.«include» = "" <;>
      simp [h1, h2, h3, h4, hw]

/-- Witness: the spec's wildcard-clobber example.  Explicit
`comments = "x"` survives a matching wildcard with `comments = "y"`
(with the warning emitted), and an empty `comments` becomes
`"[org.w.*] y"`. -/
theorem C5_wildcard_overlay_witness :
    ({ id := "org.w.*", comments := "y", isWildcard := true } : Component).isWildcard = true ∧
    ((Component.merge { id := "org.x", comments := "x" } none
        { id := "org.w.*", comments := "y", isWildcard := true }).1).comments = "x" ∧
    ("org.x" ++ ": matched by wildcard " ++ "org.w.*" ++ ", but " ++ "comments" ++
        " explicitly specified") ∈
      (Component.merge { id := "org.x", comments := "x" } none
        { id := "org.w.*", comments := "y", isWildcard := true }).2 ∧
    ((Component.merge { id := "org.x", comments := "" } none
        { id := "org.w.*", comments := "y", isWildcard := true }).1).comments =
      "[" ++ "org.w.*" ++ "] " ++ "y" := by
  have h1 := (C5_wildcard_overlay { id := "org.x", comments := "x" }
    { id := "org.w.*", comments := "y", isWildcard := true } rfl).1 (by decide)
  have h2 := (C5_wildcard_overlay { id := "org.x", comments := "" }
    { id := "org.w.*", comments := "y", isWildcard := true } rfl).2.1 rfl (by decide)
  exact ⟨rfl, h1.1, h1.2, h2⟩

end FFF
